import Mathlib

/- Verification of the hierarchy aggregation and structural path-collapsing
pipeline of the tickets-treemap repository (generate_treemap.py and
create_treemap.py).  Numeric values of records and nodes are modelled as
exact rationals; DataFrame rows are modelled as lists of strings in which
the empty string stands for a missing (NA) level, matching the fillna('')
normalisation performed before build_tree runs. -/

set_option maxHeartbeats 1600000

/-- One aggregated input record (a row of df_agg): entry i of `hierarchy` is
the cleaned value of hierarchy column i, the empty string standing for a
missing level; `value` is the summed numeric measure of the row. -/
structure Record where
  hierarchy : List String
  value : ℚ
deriving DecidableEq

/-- Reading of a record as a row over `cols` hierarchy columns: position i
holds the value of column i, positions beyond the stored list read as the
empty string (missing level). -/
def rowOf (cols : Nat) (r : Record) : List String :=
  (List.range cols).map (fun i => r.hierarchy.getD i "")

mutual
/-- Tree node built by build_tree: name, numeric value, children mapping (in
insertion order, as a Python dict), original path from the root (including
the leading "Root"), and the is_leaf flag. -/
inductive Node : Type where
| mk (name : String) (value : ℚ) (children : Forest) (originalPath : List String)
    (isLeaf : Bool) : Node
/-- Children mapping of a node: an association list from child name to child
node kept in insertion order, modelling the Python dict `children`. -/
inductive Forest : Type where
| nil : Forest
| cons (key : String) (child : Node) (rest : Forest) : Forest
end

/-- Name of a node. -/
def Node.name : Node → String
| .mk n _ _ _ _ => n

/-- Value of a node. -/
def Node.value : Node → ℚ
| .mk _ v _ _ _ => v

/-- Children of a node. -/
def Node.children : Node → Forest
| .mk _ _ cs _ _ => cs

/-- Original path of a node (starts with "Root"). -/
def Node.originalPath : Node → List String
| .mk _ _ _ p _ => p

/-- The is_leaf flag of a node. -/
def Node.isLeaf : Node → Bool
| .mk _ _ _ _ l => l

/-- Test for the empty children mapping (Python `not node['children']`). -/
def Forest.isNil : Forest → Bool
| .nil => true
| .cons _ _ _ => false

/-- Lookup of a child by name in a children mapping (Python
`children[name]` / `name in children`). -/
def Forest.getChild : Forest → String → Option Node
| .nil, _ => none
| .cons k c rest, key => if k = key then some c else rest.getChild key

/-- Update of a children mapping at a key, replacing the first binding of the
key in place or appending a new binding at the end, exactly as assignment to
a Python dict entry behaves. -/
def Forest.setChild : Forest → String → Node → Forest
| .nil, key, n => .cons key n .nil
| .cons k c rest, key, n =>
    if k = key then .cons key n rest else .cons k c (rest.setChild key n)

/-- Keys of a children mapping, in order. -/
def Forest.keys : Forest → List String
| .nil => []
| .cons k _ rest => k :: rest.keys

/-- Replacement of the value stored at a node (Python `node['value'] = v`). -/
def Node.setValue : Node → ℚ → Node
| .mk n _ cs p l, v => .mk n v cs p l

/-- The sentinel root node build_tree starts from:
`{'name': 'Root', 'children': {}, 'value': 0, 'original_path': ['Root'],
'is_leaf': False}`. -/
def rootInit : Node := .mk "Root" 0 .nil ["Root"] false

/-- Test that every hierarchy level of a row fragment is empty, the
`is_last_valid_level_in_row` / `is_last_level_for_row` check of build_tree
(`pd.isna(...) or ... == ''` on each remaining column). -/
def allEmpty (ls : List String) : Bool := ls.all (fun s => s == "")

/-- The non-empty leading levels of a row: the hierarchy path the insertion
walk of build_tree actually descends through before stopping. -/
def truncL (ls : List String) : List String := ls.takeWhile (fun s => !(s == ""))

/-- Whether a row is contiguous: after its leading non-empty levels every
remaining level is empty (the contiguous-suffix rule of the input
contract). -/
def contig (ls : List String) : Bool := allEmpty (ls.drop (truncL ls).length)

/-- Where the insertion walk of build_tree attributes the value of a row, as
a path relative to the node the walk starts from (`nm` is that node's name):
nowhere for an empty or non-contiguous row, at the starting node itself for
an all-empty row when the starting node is not named "Root" (the defensive
branch), and at the leading non-empty path otherwise. -/
def addAtC (ls : List String) (nm : String) : Option (List String) :=
  if ls = [] then none
  else if contig ls = false then none
  else if truncL ls = [] then (if nm ≠ "Root" then some [] else none)
  else some (truncL ls)

/-- Boolean test that an optional attribution path is present and extends a
given path p (so the attributed value lands inside the subtree at p). -/
def addHits (o : Option (List String)) (p : List String) : Bool :=
  match o with
  | none => false
  | some q => decide (p <+: q)

/-- Value attribution of a record inserted at the root of the tree:
`addAtC` of the record's row relative to the "Root" sentinel. -/
def recAdd (cols : Nat) (r : Record) : Option (List String) :=
  addAtC (rowOf cols r) "Root"

/-- The leading non-empty hierarchy path of a record's row. -/
def recTrunc (cols : Nat) (r : Record) : List String := truncL (rowOf cols r)

/-- Adding a row's value to the node the walk stopped at and marking it a
leaf (`current_level['value'] += row[value_col]`,
`current_level['is_leaf'] = True`). -/
def bumpLeaf (n : Node) (v : ℚ) : Node :=
  .mk n.name (n.value + v) n.children n.originalPath true

/-- Child lookup-or-creation of build_tree's insertion loop: an existing
child is kept (its original_path replaced when the new path is strictly
shorter), a missing child is created with value 0, no children and the
accumulated original path. -/
def getOrCreate (cs : Forest) (name : String) (newPath : List String) : Node :=
  match cs.getChild name with
  | some c =>
      if newPath.length < c.originalPath.length then
        .mk c.name c.value c.children newPath c.isLeaf
      else c
  | none => .mk name 0 .nil newPath false

/-- The per-row insertion loop of build_tree, walking the remaining hierarchy
levels of the row from the current node, with `pathSoFar` the
full_original_path accumulated so far and `v` the row value.  A child is
created on demand for each non-empty level; when the levels remaining after
the current one are all empty the value is added to the child reached and
its is_leaf flag is set; when an empty level is hit the walk stops, adding
the value to the current node only in the defensive case where the whole
remainder is empty and the current node is not named "Root". -/
def insertWalk (v : ℚ) : List String → List String → Node → Node
| [], _, node => node
| name :: rest, pathSoFar, node =>
    if name = "" then
      if allEmpty (name :: rest) ∧ node.name ≠ "Root" then bumpLeaf node v
      else node
    else
      let newPath := pathSoFar ++ [name]
      let child := getOrCreate node.children name newPath
      let child' :=
        if allEmpty rest then bumpLeaf child v
        else insertWalk v rest newPath child
      .mk node.name node.value (node.children.setChild name child')
        node.originalPath node.isLeaf

/-- Insertion of one aggregated record into the tree (one iteration of the
`for _, row in df.iterrows()` loop of build_tree, over `cols` hierarchy
columns). -/
def insertRecord (cols : Nat) (t : Node) (r : Record) : Node :=
  insertWalk r.value (rowOf cols r) ["Root"] t

/-- The whole insertion phase of build_tree: all records inserted in order,
starting from the sentinel root. -/
def insertPhase (cols : Nat) (rs : List Record) : Node :=
  rs.foldl (insertRecord cols) rootInit

/-- Sum of the (already recomputed) values of the children in a mapping,
the `children_sum` of the post-order pass. -/
def forestValueSum : Forest → ℚ
| .nil => 0
| .cons _ c rest => c.value + forestValueSum rest

mutual
/-- Post-order pass update_parent_values_and_leaf_status of build_tree: a
node with no children is marked as a leaf and keeps its directly assigned
value; a node with children is marked as not a leaf and its value becomes
its direct value plus the sum of its children's recomputed values. -/
def update_parent_values_and_leaf_status : Node → Node
| .mk n v .nil p _ => .mk n v .nil p true
| .mk n v (.cons k c rest) p _ =>
    let cs' := updateForest (.cons k c rest)
    .mk n (v + forestValueSum cs') cs' p false
termination_by structural t => t
/-- The recursive descent of the post-order pass over a children mapping. -/
def updateForest : Forest → Forest
| .nil => .nil
| .cons k c rest => .cons k (update_parent_values_and_leaf_status c) (updateForest rest)
termination_by structural f => f
end

/-- Sum of the values of all records, the `total_value = df[value_col].sum()`
computed by build_tree for the root consistency check. -/
def recordsTotal (rs : List Record) : ℚ := (rs.map Record.value).sum

/-- The float tolerance 1e-6 of build_tree's root consistency check. -/
def rootEps : ℚ := 1 / 1000000

/-- build_tree: inserts every record, runs the post-order pass, and then
fixes up the root value: 0 for an empty tree, and the externally computed
total when the recomputed root value differs from it by more than 1e-6. -/
def build_tree (cols : Nat) (rs : List Record) : Node :=
  let t2 := update_parent_values_and_leaf_status (insertPhase cols rs)
  let total := recordsTotal rs
  if t2.children.isNil then t2.setValue 0
  else if |t2.value - total| > rootEps then t2.setValue total
  else t2

/-- Lookup of the node sitting at a hierarchy path (child names from the
root downwards). -/
def lookupPath : Node → List String → Option Node
| t, [] => some t
| t, k :: ks =>
    match t.children.getChild k with
    | none => none
    | some c => lookupPath c ks

/-- Value stored at a path (0 when no node sits there). -/
def valueAt (t : Node) (p : List String) : ℚ :=
  ((lookupPath t p).map Node.value).getD 0

/-- Whether a node sits at a path. -/
def existsAt (t : Node) (p : List String) : Bool :=
  (lookupPath t p).isSome

mutual
/-- Sum of the directly attributed values over a whole subtree (the value
the post-order pass recomputes for its root). -/
def directTotal : Node → ℚ
| .mk _ v cs _ _ => v + forestDirectTotal cs
termination_by structural t => t
/-- Sum of the directly attributed values over a forest of subtrees. -/
def forestDirectTotal : Forest → ℚ
| .nil => 0
| .cons _ c rest => directTotal c + forestDirectTotal rest
termination_by structural f => f
end

/-- Sum of the directly attributed values of the subtree rooted at a path
(0 when no node sits there). -/
def subDirect (t : Node) (p : List String) : ℚ :=
  ((lookupPath t p).map directTotal).getD 0

mutual
/-- All nodes of a tree, the node itself first. -/
def nodesOf : Node → List Node
| .mk n v cs p l => .mk n v cs p l :: nodesForest cs
termination_by structural t => t
/-- All nodes of the subtrees of a forest. -/
def nodesForest : Forest → List Node
| .nil => []
| .cons _ c rest => nodesOf c ++ nodesForest rest
termination_by structural f => f
end

mutual
/-- Well-keyed tree: every children mapping binds distinct keys (true of
Python dicts by construction). -/
def wellKeyed : Node → Prop
| .mk _ _ cs _ _ => wellKeyedF cs
termination_by structural t => t
/-- Well-keyed forest: distinct keys, recursively well-keyed children. -/
def wellKeyedF : Forest → Prop
| .nil => True
| .cons k c rest => k ∉ rest.keys ∧ wellKeyed c ∧ wellKeyedF rest
termination_by structural f => f
end

mutual
/-- Well-named tree: every child is stored under its own name, as
build_tree's insertion guarantees. -/
def wellNamed : Node → Prop
| .mk _ _ cs _ _ => wellNamedF cs
termination_by structural t => t
/-- Well-named forest: each binding's node carries the binding key as its
name, recursively. -/
def wellNamedF : Forest → Prop
| .nil => True
| .cons k c rest => c.name = k ∧ wellNamed c ∧ wellNamedF rest
termination_by structural f => f
end

mutual
/-- Sum, over the childless nodes of a tree whose direct value is positive,
of those direct values (what the flattening of the updated tree totals). -/
def leafPosSum : Node → ℚ
| .mk _ v .nil _ _ => if 0 < v then v else 0
| .mk _ _ (.cons k c rest) _ _ => forestLeafPosSum (.cons k c rest)
termination_by structural t => t
/-- Sum of `leafPosSum` over a forest of subtrees. -/
def forestLeafPosSum : Forest → ℚ
| .nil => 0
| .cons _ c rest => leafPosSum c + forestLeafPosSum rest
termination_by structural f => f
end

/-- One row of the flattened original DataFrame (df_flat_orig), as produced
by flatten_original_tree_to_df for a leaf node: the `max_depth` hierarchy
level columns (padded with the empty string), the plotted value, the
original path joined with " > ", and the original leaf label used for
display text. -/
structure LeafRow where
  levels : List String
  value_plot : ℚ
  original_path_str : String
  original_leaf_label : String
deriving DecidableEq

mutual
/-- flatten_original_tree_to_df: walks the original tree in depth-first
order accumulating the original path (the node name is appended unless it is
"Root") and emits one row for every node whose is_leaf flag is set and whose
value is positive. -/
def flatten_original_tree_to_df (maxDepth : Nat) (currentPath : List String) :
    Node → List LeafRow
| .mk n v cs p l =>
    let nextPath := if n ≠ "Root" then currentPath ++ [n] else currentPath
    let rows : List LeafRow :=
      if l = true ∧ 0 < v then
        [⟨(List.range maxDepth).map (fun i => nextPath.getD i ""), v,
          String.intercalate " > " p,
          if 1 < p.length then p.getLastD "" else n⟩]
      else []
    rows ++ flattenForest maxDepth nextPath cs
termination_by structural t => t
/-- Depth-first traversal of flatten_original_tree_to_df over the children
of a node, in insertion order. -/
def flattenForest (maxDepth : Nat) (currentPath : List String) : Forest → List LeafRow
| .nil => []
| .cons _ c rest =>
    flatten_original_tree_to_df maxDepth currentPath c ++ flattenForest maxDepth currentPath rest
termination_by structural f => f
end

/-- Sum of the plotted values of a list of flattened rows. -/
def rowsSum (rows : List LeafRow) : ℚ := (rows.map LeafRow.value_plot).sum

/-- The accumulated display path flatten_original_tree_to_df reaches when
descending from a node along a path of child keys: the node name is appended
at each step unless it is "Root"; `none` when the path leaves the tree. -/
def walkPath (cur : List String) : Node → List String → Option (List String)
| t, [] => some (if t.name ≠ "Root" then cur ++ [t.name] else cur)
| t, k :: ks =>
    match t.children.getChild k with
    | none => none
    | some c => walkPath (if t.name ≠ "Root" then cur ++ [t.name] else cur) c ks

/-- The parent-path key of a flattened row at depth k: the values of the
first k level columns, the tuple pandas groups by. -/
def parentKey (k : Nat) (r : LeafRow) : List String := r.levels.take k

/-- The child value of a flattened row at depth k: the value in level
column k (empty string when the row's path ended earlier). -/
def childVal (k : Nat) (r : LeafRow) : String := r.levels.getD k ""

/-- Distinct values of a list in first-occurrence order, as pandas
`Series.unique` returns them. -/
def pandasUniq {α : Type} [DecidableEq α] : List α → List α
| [] => []
| a :: l => a :: pandasUniq (l.filter (fun b => decide (b ≠ a)))
termination_by l => l.length
decreasing_by
  exact Nat.lt_succ_of_le (List.length_filter_le _ _)

/-- The distinct parent-path keys present among the flattened rows at depth
k (the groups of the pandas groupby). -/
def groupKeys (k : Nat) (rows : List LeafRow) : List (List String) :=
  pandasUniq (rows.map (parentKey k))

/-- The `unique_children` of a parent group at depth k: values of level
column k among the rows of the group, with empty values dropped
(`replace('', nan).dropna()`), deduplicated. -/
def uniqueChildrenAt (k : Nat) (p : List String) (rows : List LeafRow) : List String :=
  pandasUniq (((rows.filter (fun r => decide (parentKey k r = p))).map (childVal k)).filter
    (fun s => decide (s ≠ "")))

/-- The single-descendant-step analysis of main (lines 384-416): for each
depth k below D, every parent group with exactly one distinct non-empty
child value at level k contributes the pair (parent path, that child). The
Python set is modelled as the list of its elements. -/
def single_steps (D : Nat) (rows : List LeafRow) : List (List String × String) :=
  (List.range D).flatMap (fun k =>
    (groupKeys k rows).filterMap (fun p =>
      match uniqueChildrenAt k p rows with
      | [c] => some (p, c)
      | _ => none))

/-- Extraction of the original path components of a flattened row in the
rewriter loop of main: level values up to the first empty one. -/
def orig_path_components (r : LeafRow) : List String :=
  r.levels.takeWhile (fun s => decide (s ≠ ""))

/-- The structural path rewriter of main (lines 443-456) started from an
already accumulated parent path `par`: component i of the remaining original
path is dropped exactly when (par followed by the components before i,
component i) is a recorded single step and i is not the last index;
otherwise it is kept. -/
def structuralAux (steps : List (List String × String)) (par orig : List String) :
    List String :=
  (List.range orig.length).filterMap (fun i =>
    if (par ++ orig.take i, orig.getD i "") ∈ steps ∧ i ≠ orig.length - 1 then none
    else some (orig.getD i ""))

/-- The structural path rewriter of main (lines 443-456): component i of the
original path is dropped exactly when (components before i, component i) is
a recorded single step and i is not the last index; otherwise it is kept. -/
def structural_path (steps : List (List String × String)) (orig : List String) :
    List String :=
  structuralAux steps [] orig

/-- Modelled from the spec (section 4.3, Structural Path Rewriter), for
comparison with the code's rewriter: scan i = 0 … n−1; if (P[0..i), P[i]) is
a recorded single-step and i is not the last index, omit P[i], else append
it; the final element is always appended. -/
def spec_rewrite (steps : List (List String × String)) :
    List String → List String → List String
| _, [] => []
| _, [x] => [x]
| par, x :: y :: rest =>
    (if (par, x) ∈ steps then [] else [x]) ++ spec_rewrite steps (par ++ [x]) (y :: rest)

/-- Summary of the node sitting at a path: its name, value and is_leaf flag
(what the spec calls the identity of the aggregate tree). -/
def nodeSummary (t : Node) (p : List String) : Option (String × ℚ × Bool) :=
  (lookupPath t p).map (fun n => (n.name, n.value, n.isLeaf))

/-- Round-half-to-even of a rational to an integer, the rounding Python's
round() and "{:.2f}" float formatting perform. -/
def roundHalfEven (q : ℚ) : ℤ :=
  let f := ⌊q⌋
  if q - f < 1/2 then f
  else if (1 : ℚ)/2 < q - f then f + 1
  else if Even f then f else f + 1

/-- Rounding of a rational to two decimal places, modelling both Python's
round(x, 2) and the numeric content of "{:.2f}".format(x). -/
def round2 (q : ℚ) : ℚ := (roundHalfEven (q * 100) : ℚ) / 100

/-- Numeric content of format_percentage of generate_treemap.py: "0.00%"
when the total is missing or zero, otherwise (value / total) * 100 formatted
with two decimals. -/
def format_percentage (value total : ℚ) : ℚ :=
  if total = 0 then 0 else round2 (value / total * 100)

/-- Numeric content of the percentage in get_display_text of
create_treemap.py: (value / total) * 100 when the total is non-zero
(truthy), else 0, then formatted with two decimals. -/
def get_display_text_pct (value total : ℚ) : ℚ :=
  round2 (if total ≠ 0 then value / total * 100 else 0)

@[simp] theorem Node.name_mk (n : String) (v : ℚ) (cs : Forest) (p : List String)
    (l : Bool) : (Node.mk n v cs p l).name = n := rfl

@[simp] theorem Node.value_mk (n : String) (v : ℚ) (cs : Forest) (p : List String)
    (l : Bool) : (Node.mk n v cs p l).value = v := rfl

@[simp] theorem Node.children_mk (n : String) (v : ℚ) (cs : Forest) (p : List String)
    (l : Bool) : (Node.mk n v cs p l).children = cs := rfl

@[simp] theorem Node.originalPath_mk (n : String) (v : ℚ) (cs : Forest) (p : List String)
    (l : Bool) : (Node.mk n v cs p l).originalPath = p := rfl

@[simp] theorem Node.isLeaf_mk (n : String) (v : ℚ) (cs : Forest) (p : List String)
    (l : Bool) : (Node.mk n v cs p l).isLeaf = l := rfl

@[simp] theorem Node.setValue_mk (n : String) (v w : ℚ) (cs : Forest) (p : List String)
    (l : Bool) : (Node.mk n v cs p l).setValue w = Node.mk n w cs p l := rfl

@[simp] theorem Node.name_setValue (t : Node) (w : ℚ) : (t.setValue w).name = t.name := by
  cases t <;> rfl

@[simp] theorem Node.value_setValue (t : Node) (w : ℚ) : (t.setValue w).value = w := by
  cases t <;> rfl

@[simp] theorem Node.children_setValue (t : Node) (w : ℚ) :
    (t.setValue w).children = t.children := by
  cases t <;> rfl

@[simp] theorem Node.isLeaf_setValue (t : Node) (w : ℚ) :
    (t.setValue w).isLeaf = t.isLeaf := by
  cases t <;> rfl

@[simp] theorem bumpLeaf_name (t : Node) (v : ℚ) : (bumpLeaf t v).name = t.name := rfl

@[simp] theorem bumpLeaf_value (t : Node) (v : ℚ) :
    (bumpLeaf t v).value = t.value + v := rfl

@[simp] theorem bumpLeaf_children (t : Node) (v : ℚ) :
    (bumpLeaf t v).children = t.children := rfl

@[simp] theorem Forest.getChild_nil (k : String) : Forest.nil.getChild k = none := rfl

theorem Forest.getChild_cons (k : String) (c : Node) (rest : Forest) (key : String) :
    (Forest.cons k c rest).getChild key =
      if k = key then some c else rest.getChild key := rfl

@[simp] theorem Forest.isNil_nil : Forest.nil.isNil = true := rfl

@[simp] theorem Forest.isNil_cons (k : String) (c : Node) (rest : Forest) :
    (Forest.cons k c rest).isNil = false := rfl

theorem Forest.isNil_iff_getChild_none (cs : Forest) :
    cs.isNil = true ↔ ∀ k, cs.getChild k = none := by
  cases cs with
  | nil => simp
  | cons k c rest =>
      simp only [Forest.isNil_cons, Forest.getChild_cons]
      constructor
      · intro h; cases h
      · intro h
        have := h k
        simp at this

/-- Induction along the spine of a forest (the mutual recursor of
Node/Forest specialised to a motive that ignores the child nodes). -/
theorem Forest.spineInduction (motive : Forest → Prop) (hnil : motive .nil)
    (hcons : ∀ k c rest, motive rest → motive (.cons k c rest)) :
    ∀ cs : Forest, motive cs
| .nil => hnil
| .cons k c rest => hcons k c rest (Forest.spineInduction motive hnil hcons rest)

@[simp] theorem Forest.getChild_setChild_self (cs : Forest) (k : String) (n : Node) :
    (cs.setChild k n).getChild k = some n := by
  induction cs using Forest.spineInduction with
  | hnil => simp [Forest.setChild, Forest.getChild]
  | hcons k' c rest ih =>
      by_cases h : k' = k
      · simp [Forest.setChild, h, Forest.getChild]
      · simp [Forest.setChild, h, Forest.getChild, ih]

theorem Forest.getChild_setChild_ne (cs : Forest) (k key : String) (n : Node)
    (h : k ≠ key) : (cs.setChild k n).getChild key = cs.getChild key := by
  induction cs using Forest.spineInduction with
  | hnil => simp [Forest.setChild, Forest.getChild, h]
  | hcons k' c rest ih =>
      by_cases hk : k' = k
      · subst hk
        simp [Forest.setChild, Forest.getChild, h, ih]
      · simp [Forest.setChild, hk, Forest.getChild, ih]

@[simp] theorem lookupPath_nil (t : Node) : lookupPath t [] = some t := rfl

theorem lookupPath_cons (t : Node) (k : String) (ks : List String) :
    lookupPath t (k :: ks) = (t.children.getChild k).bind (fun c => lookupPath c ks) := by
  cases h : t.children.getChild k <;> simp [lookupPath, h]

theorem lookupPath_append (t : Node) (p q : List String) :
    lookupPath t (p ++ q) = (lookupPath t p).bind (fun n => lookupPath n q) := by
  induction p generalizing t with
  | nil => simp
  | cons k ks ih =>
      simp only [List.cons_append, lookupPath_cons]
      cases h : t.children.getChild k <;> simp [ih]

theorem valueAt_nil (t : Node) : valueAt t [] = t.value := rfl

theorem existsAt_nil (t : Node) : existsAt t [] = true := rfl

theorem subDirect_nil (t : Node) : subDirect t [] = directTotal t := rfl

theorem valueAt_cons (t : Node) (k : String) (ks : List String) :
    valueAt t (k :: ks) = ((t.children.getChild k).map (fun c => valueAt c ks)).getD 0 := by
  unfold valueAt
  rw [lookupPath_cons]
  cases t.children.getChild k <;> simp [valueAt]

theorem existsAt_cons (t : Node) (k : String) (ks : List String) :
    existsAt t (k :: ks) = ((t.children.getChild k).map (fun c => existsAt c ks)).getD false := by
  unfold existsAt
  rw [lookupPath_cons]
  cases t.children.getChild k <;> simp [existsAt]

theorem subDirect_cons (t : Node) (k : String) (ks : List String) :
    subDirect t (k :: ks) = ((t.children.getChild k).map (fun c => subDirect c ks)).getD 0 := by
  unfold subDirect
  rw [lookupPath_cons]
  cases t.children.getChild k <;> simp [subDirect]

@[simp] theorem allEmpty_nil : allEmpty [] = true := rfl

theorem allEmpty_cons (s : String) (l : List String) :
    allEmpty (s :: l) = ((s == "") && allEmpty l) := by
  simp [allEmpty]

@[simp] theorem truncL_nil : truncL [] = [] := rfl

theorem truncL_cons_of_ne (s : String) (l : List String) (h : s ≠ "") :
    truncL (s :: l) = s :: truncL l := by
  simp [truncL, List.takeWhile_cons, h]

@[simp] theorem truncL_cons_empty (l : List String) : truncL ("" :: l) = [] := by
  simp [truncL, List.takeWhile_cons]

theorem truncL_eq_nil_of_allEmpty (ls : List String) (h : allEmpty ls = true) :
    truncL ls = [] := by
  cases ls with
  | nil => rfl
  | cons s l =>
      have hs : s = "" := by
        have := h
        simp [allEmpty_cons] at this
        exact this.1
      subst hs
      simp

@[simp] theorem contig_nil : contig [] = true := rfl

theorem contig_of_allEmpty (ls : List String) (h : allEmpty ls = true) :
    contig ls = true := by
  unfold contig
  rw [truncL_eq_nil_of_allEmpty ls h]
  simpa using h

theorem contig_eq_allEmpty_of_truncL_nil (ls : List String) (h : truncL ls = []) :
    contig ls = allEmpty ls := by
  simp [contig, h]

theorem contig_cons_of_ne (s : String) (l : List String) (h : s ≠ "") :
    contig (s :: l) = contig l := by
  simp [contig, truncL_cons_of_ne s l h]

theorem addAtC_nil (nm : String) : addAtC [] nm = none := by
  simp [addAtC]

theorem addAtC_allEmpty (ls : List String) (nm : String) (h : allEmpty ls = true)
    (hne : ls ≠ []) : addAtC ls nm = if nm ≠ "Root" then some [] else none := by
  simp [addAtC, hne, contig_of_allEmpty ls h, truncL_eq_nil_of_allEmpty ls h]

theorem addAtC_empty_not_all (rest : List String) (nm : String)
    (h : allEmpty ("" :: rest) = false) : addAtC ("" :: rest) nm = none := by
  have hc : contig ("" :: rest) = false := by
    rw [contig_eq_allEmpty_of_truncL_nil _ (truncL_cons_empty rest)]
    exact h
  simp [addAtC, hc]

theorem addAtC_cons_ne (name : String) (rest : List String) (nm : String)
    (h : name ≠ "") :
    addAtC (name :: rest) nm =
      if contig rest = true then some (name :: truncL rest) else none := by
  by_cases hc : contig rest = true
  · simp [addAtC, contig_cons_of_ne name rest h, hc, truncL_cons_of_ne name rest h]
  · have hc' : contig rest = false := by
      cases hcc : contig rest
      · rfl
      · exact absurd hcc hc
    simp [addAtC, contig_cons_of_ne name rest h, hc']

theorem rest_ne_nil_of_not_allEmpty (rest : List String) (h : allEmpty rest = false) :
    rest ≠ [] := by
  intro hn
  subst hn
  simp [allEmpty] at h

@[simp] theorem insertWalk_nil (v : ℚ) (pathSoFar : List String) (t : Node) :
    insertWalk v [] pathSoFar t = t := rfl

theorem insertWalk_cons_empty (v : ℚ) (rest pathSoFar : List String) (t : Node) :
    insertWalk v ("" :: rest) pathSoFar t =
      if allEmpty ("" :: rest) = true ∧ t.name ≠ "Root" then bumpLeaf t v else t := by
  simp [insertWalk]

theorem insertWalk_cons_ne (v : ℚ) (name : String) (rest pathSoFar : List String)
    (t : Node) (h : name ≠ "") :
    insertWalk v (name :: rest) pathSoFar t =
      Node.mk t.name t.value
        (t.children.setChild name
          (if allEmpty rest = true then
            bumpLeaf (getOrCreate t.children name (pathSoFar ++ [name])) v
          else insertWalk v rest (pathSoFar ++ [name])
            (getOrCreate t.children name (pathSoFar ++ [name]))))
        t.originalPath t.isLeaf := by
  simp [insertWalk, h]

theorem getOrCreate_name (cs : Forest) (name : String) (newPath : List String) :
    (getOrCreate cs name newPath).name = ((cs.getChild name).map Node.name).getD name := by
  unfold getOrCreate
  cases cs.getChild name with
  | none => simp
  | some c =>
      by_cases h : newPath.length < c.originalPath.length <;> simp [h]

theorem getOrCreate_value (cs : Forest) (name : String) (newPath : List String) :
    (getOrCreate cs name newPath).value = ((cs.getChild name).map Node.value).getD 0 := by
  unfold getOrCreate
  cases cs.getChild name with
  | none => simp
  | some c =>
      by_cases h : newPath.length < c.originalPath.length <;> simp [h]

theorem getOrCreate_children (cs : Forest) (name : String) (newPath : List String) :
    (getOrCreate cs name newPath).children =
      ((cs.getChild name).map Node.children).getD .nil := by
  unfold getOrCreate
  cases cs.getChild name with
  | none => simp
  | some c =>
      by_cases h : newPath.length < c.originalPath.length <;> simp [h]

theorem valueAt_getOrCreate (cs : Forest) (name : String) (newPath ks : List String) :
    valueAt (getOrCreate cs name newPath) ks =
      ((cs.getChild name).map (fun c => valueAt c ks)).getD 0 := by
  cases ks with
  | nil =>
      rw [valueAt_nil, getOrCreate_value]
      cases cs.getChild name <;> simp [valueAt_nil]
  | cons k' ks' =>
      rw [valueAt_cons, getOrCreate_children]
      cases cs.getChild name with
      | none => simp
      | some c => simp [valueAt_cons]

theorem addAtC_none_of_contig_false (ls : List String) (nm : String)
    (h : contig ls = false) : addAtC ls nm = none := by
  have hne : ls ≠ [] := by
    intro h0
    subst h0
    simp at h
  simp [addAtC, hne, h]

theorem addAtC_some_trunc (ls : List String) (nm : String) (h1 : contig ls = true)
    (h2 : truncL ls ≠ []) : addAtC ls nm = some (truncL ls) := by
  have hne : ls ≠ [] := by
    intro h0
    subst h0
    simp at h2
  simp [addAtC, hne, h1, h2]

theorem allEmpty_false_of_ne (rest : List String) (h : ¬ allEmpty rest = true) :
    allEmpty rest = false := by
  cases hc : allEmpty rest
  · rfl
  · exact absurd hc h

theorem contig_false_of_ne (rest : List String) (h : ¬ contig rest = true) :
    contig rest = false := by
  cases hc : contig rest
  · rfl
  · exact absurd hc h

theorem valueAt_insertWalk (v : ℚ) (ls : List String) :
    ∀ (pathSoFar : List String) (t : Node) (p : List String),
    valueAt (insertWalk v ls pathSoFar t) p =
      valueAt t p + (if addAtC ls t.name = some p then v else 0) := by
  induction ls with
  | nil =>
      intro pathSoFar t p
      simp [addAtC_nil]
  | cons name rest ih =>
      intro pathSoFar t p
      by_cases hname : name = ""
      · subst hname
        rw [insertWalk_cons_empty]
        by_cases hcond : allEmpty ("" :: rest) = true ∧ t.name ≠ "Root"
        · rw [if_pos hcond, addAtC_allEmpty _ _ hcond.1 (by simp), if_pos hcond.2]
          cases p with
          | nil => simp [valueAt_nil, bumpLeaf]
          | cons k ks => simp [valueAt_cons, bumpLeaf]
        · rw [if_neg hcond]
          have hnone : addAtC ("" :: rest) t.name = none := by
            by_cases hAll : allEmpty ("" :: rest) = true
            · have hRoot : t.name = "Root" := by
                by_contra hR
                exact hcond ⟨hAll, hR⟩
              rw [addAtC_allEmpty _ _ hAll (by simp), hRoot]
              simp
            · exact addAtC_empty_not_all _ _ (allEmpty_false_of_ne _ hAll)
          simp [hnone]
      · rw [insertWalk_cons_ne v name rest pathSoFar t hname,
          addAtC_cons_ne name rest t.name hname]
        cases p with
        | nil =>
            by_cases hc : contig rest = true <;> simp [valueAt_nil, hc]
        | cons k ks =>
            by_cases hk : name = k
            · subst hk
              rw [valueAt_cons]
              simp only [Node.children_mk, Forest.getChild_setChild_self,
                Option.map_some, Option.getD_some]
              by_cases hAll : allEmpty rest = true
              · rw [if_pos hAll]
                have hcr : contig rest = true := contig_of_allEmpty rest hAll
                have htr : truncL rest = [] := truncL_eq_nil_of_allEmpty rest hAll
                cases ks with
                | nil =>
                    simp only [Option.map_some', Option.getD_some, valueAt_nil,
                      bumpLeaf_value, hcr, htr, if_true]
                    rw [getOrCreate_value, valueAt_cons]
                    cases t.children.getChild name <;> simp [valueAt_nil]
                | cons k' ks' =>
                    simp only [Option.map_some', Option.getD_some, valueAt_cons,
                      bumpLeaf_children, hcr, htr, if_true]
                    rw [getOrCreate_children]
    
                    cases t.children.getChild name <;> simp [valueAt_cons]
              · simp only [Option.map_some', Option.getD_some, if_neg hAll]
                rw [ih (pathSoFar ++ [name]) (getOrCreate t.children name (pathSoFar ++ [name])) ks]
                rw [valueAt_getOrCreate, valueAt_cons]
                congr 1
                by_cases hc : contig rest = true
                · have htr : truncL rest ≠ [] := by
                    intro h0
                    rw [contig_eq_allEmpty_of_truncL_nil _ h0] at hc
                    exact hAll hc
                  rw [addAtC_some_trunc rest _ hc htr, hc]
                  simp only [if_pos rfl, Option.some.injEq, List.cons.injEq, true_and]
                  by_cases hks : truncL rest = ks <;> simp [hks]
                · rw [addAtC_none_of_contig_false rest _ (contig_false_of_ne rest hc)]
                  simp [hc]
            · rw [valueAt_cons]
              simp only [Node.children_mk]
              rw [Forest.getChild_setChild_ne _ _ _ _ hk, ← valueAt_cons]
              have hne2 : (if contig rest = true then some (name :: truncL rest) else none) ≠
                  some (k :: ks) := by
                by_cases hc : contig rest = true <;> simp [hc]
                exact fun h _ => hk h
              simp [hne2]

theorem directTotal_mk (n : String) (v : ℚ) (cs : Forest) (p : List String) (l : Bool) :
    directTotal (Node.mk n v cs p l) = v + forestDirectTotal cs := rfl

theorem directTotal_bumpLeaf (t : Node) (v : ℚ) :
    directTotal (bumpLeaf t v) = directTotal t + v := by
  cases t
  simp [bumpLeaf, directTotal_mk]
  ring

theorem forestDirectTotal_setChild (cs : Forest) (k : String) (n : Node) :
    forestDirectTotal (cs.setChild k n) =
      forestDirectTotal cs + directTotal n - ((cs.getChild k).map directTotal).getD 0 := by
  induction cs using Forest.spineInduction with
  | hnil => simp [Forest.setChild, forestDirectTotal]
  | hcons k' c rest ih =>
      by_cases h : k' = k
      · subst h
        simp [Forest.setChild, Forest.getChild_cons, forestDirectTotal]
        ring
      · simp [Forest.setChild, h, Forest.getChild_cons, forestDirectTotal, ih]
        ring

theorem directTotal_eq (t : Node) :
    directTotal t = t.value + forestDirectTotal t.children := by
  cases t
  rfl

theorem directTotal_getOrCreate (cs : Forest) (name : String) (newPath : List String) :
    directTotal (getOrCreate cs name newPath) =
      ((cs.getChild name).map directTotal).getD 0 := by
  unfold getOrCreate
  cases cs.getChild name with
  | none => simp [directTotal_mk, forestDirectTotal]
  | some c =>
      by_cases h : newPath.length < c.originalPath.length
      · simp only [h, if_true, Option.map_some', Option.getD_some]
        rw [directTotal_eq, directTotal_eq c]
        simp
      · simp [h]

theorem subDirect_getOrCreate (cs : Forest) (name : String) (newPath ks : List String) :
    subDirect (getOrCreate cs name newPath) ks =
      ((cs.getChild name).map (fun c => subDirect c ks)).getD 0 := by
  cases ks with
  | nil =>
      rw [subDirect_nil, directTotal_getOrCreate]
      cases cs.getChild name <;> simp [subDirect_nil]
  | cons k' ks' =>
      rw [subDirect_cons, getOrCreate_children]
      cases cs.getChild name with
      | none => simp
      | some c => simp [subDirect_cons]

theorem existsAt_getOrCreate_cons (cs : Forest) (name : String) (newPath : List String)
    (k' : String) (ks' : List String) :
    existsAt (getOrCreate cs name newPath) (k' :: ks') =
      ((cs.getChild name).map (fun c => existsAt c (k' :: ks'))).getD false := by
  rw [existsAt_cons, getOrCreate_children]
  cases cs.getChild name with
  | none => simp
  | some c => simp [existsAt_cons]

@[simp] theorem addHits_none (p : List String) : addHits none p = false := rfl

theorem addHits_some (q p : List String) : addHits (some q) p = decide (p <+: q) := rfl

theorem existsAt_insertWalk (v : ℚ) (ls : List String) :
    ∀ (pathSoFar : List String) (t : Node) (p : List String),
    existsAt (insertWalk v ls pathSoFar t) p =
      (existsAt t p || decide (p ≠ [] ∧ p <+: truncL ls)) := by
  induction ls with
  | nil =>
      intro pathSoFar t p
      simp
  | cons name rest ih =>
      intro pathSoFar t p
      by_cases hname : name = ""
      · subst hname
        rw [insertWalk_cons_empty]
        have hsame : ∀ q : List String, ¬ (q ≠ [] ∧ q <+: truncL ("" :: rest)) := by
          intro q hq
          rcases hq with ⟨hne, hpre⟩
          rw [truncL_cons_empty] at hpre
          exact hne (List.prefix_nil.mp hpre)
        by_cases hcond : allEmpty ("" :: rest) = true ∧ t.name ≠ "Root"
        · rw [if_pos hcond]
          cases p with
          | nil => simp [existsAt_nil, hsame]
          | cons k ks => simp [existsAt_cons, bumpLeaf, hsame]
        · rw [if_neg hcond]
          simp [hsame p]
      · rw [insertWalk_cons_ne v name rest pathSoFar t hname,
          truncL_cons_of_ne name rest hname]
        cases p with
        | nil => simp [existsAt_nil]
        | cons k ks =>
            by_cases hk : name = k
            · subst hk
              rw [existsAt_cons]
              simp only [Node.children_mk, Forest.getChild_setChild_self,
                Option.map_some', Option.getD_some]
              by_cases hAll : allEmpty rest = true
              · rw [if_pos hAll]
                have htr : truncL rest = [] := truncL_eq_nil_of_allEmpty rest hAll
                cases ks with
                | nil =>
                    rw [existsAt_nil]
                    simp [htr, List.cons_prefix_cons]
                | cons k' ks' =>
                    rw [existsAt_cons]
                    simp only [bumpLeaf_children]
                    rw [getOrCreate_children, existsAt_cons, htr]
                    simp only [List.cons_prefix_cons]
                    cases t.children.getChild name with
                    | none => simp [existsAt_cons]
                    | some c => simp [existsAt_cons]
              · rw [if_neg hAll]
                rw [ih (pathSoFar ++ [name]) (getOrCreate t.children name (pathSoFar ++ [name])) ks]
                cases ks with
                | nil =>
                    simp [existsAt_nil, existsAt_cons, List.cons_prefix_cons]
                | cons k' ks' =>
                    rw [existsAt_getOrCreate_cons]
                    rw [existsAt_cons]
                    simp only [List.cons_prefix_cons]
                    cases t.children.getChild name with
                    | none => simp
                    | some c => simp
            · rw [existsAt_cons]
              simp only [Node.children_mk]
              rw [Forest.getChild_setChild_ne _ _ _ _ hk, ← existsAt_cons]
              have : ¬ (k :: ks <+: name :: truncL rest) := by
                rw [List.cons_prefix_cons]
                exact fun h => hk (h.1.symm)
              simp [this]

theorem subDirect_insertWalk (v : ℚ) (ls : List String) :
    ∀ (pathSoFar : List String) (t : Node) (p : List String),
    subDirect (insertWalk v ls pathSoFar t) p =
      subDirect t p + (if addHits (addAtC ls t.name) p = true then v else 0) := by
  induction ls with
  | nil =>
      intro pathSoFar t p
      simp [addAtC_nil]
  | cons name rest ih =>
      intro pathSoFar t p
      by_cases hname : name = ""
      · subst hname
        rw [insertWalk_cons_empty]
        by_cases hcond : allEmpty ("" :: rest) = true ∧ t.name ≠ "Root"
        · rw [if_pos hcond, addAtC_allEmpty _ _ hcond.1 (by simp), if_pos hcond.2]
          cases p with
          | nil => simp [subDirect_nil, directTotal_bumpLeaf, addHits_some]
          | cons k ks => simp [subDirect_cons, bumpLeaf, addHits_some]
        · rw [if_neg hcond]
          have hnone : addAtC ("" :: rest) t.name = none := by
            by_cases hAll : allEmpty ("" :: rest) = true
            · have hRoot : t.name = "Root" := by
                by_contra hR
                exact hcond ⟨hAll, hR⟩
              rw [addAtC_allEmpty _ _ hAll (by simp), hRoot]
              simp
            · exact addAtC_empty_not_all _ _ (allEmpty_false_of_ne _ hAll)
          simp [hnone]
      · rw [insertWalk_cons_ne v name rest pathSoFar t hname,
          addAtC_cons_ne name rest t.name hname]
        have hCval : directTotal (getOrCreate t.children name (pathSoFar ++ [name])) =
            ((t.children.getChild name).map directTotal).getD 0 :=
          directTotal_getOrCreate _ _ _
        cases p with
        | nil =>
            rw [subDirect_nil, subDirect_nil, directTotal_mk, directTotal_eq t,
              forestDirectTotal_setChild]
            by_cases hAll : allEmpty rest = true
            · rw [if_pos hAll]
              rw [directTotal_bumpLeaf, hCval]
              have hcr : contig rest = true := contig_of_allEmpty rest hAll
              rw [if_pos hcr]
              simp only [addHits_some, List.nil_prefix, decide_eq_true_eq, if_pos]
              ring
            · rw [if_neg hAll]
              have hIH := ih (pathSoFar ++ [name])
                (getOrCreate t.children name (pathSoFar ++ [name])) []
              rw [subDirect_nil, subDirect_nil] at hIH
              rw [hIH, hCval]
              by_cases hc : contig rest = true
              · have htr : truncL rest ≠ [] := by
                  intro h0
                  rw [contig_eq_allEmpty_of_truncL_nil _ h0] at hc
                  exact hAll hc
                rw [addAtC_some_trunc rest _ hc htr, if_pos hc]
                simp only [addHits_some, List.nil_prefix, decide_eq_true_eq, if_pos]
                ring
              · rw [addAtC_none_of_contig_false rest _ (contig_false_of_ne rest hc),
                  if_neg hc]
                simp only [addHits_none]
                simp
        | cons k ks =>
            by_cases hk : name = k
            · subst hk
              rw [subDirect_cons]
              simp only [Node.children_mk, Forest.getChild_setChild_self,
                Option.map_some', Option.getD_some]
              by_cases hAll : allEmpty rest = true
              · rw [if_pos hAll]
                have hcr : contig rest = true := contig_of_allEmpty rest hAll
                have htr : truncL rest = [] := truncL_eq_nil_of_allEmpty rest hAll
                rw [if_pos hcr, htr]
                cases ks with
                | nil =>
                    rw [subDirect_nil, directTotal_bumpLeaf, hCval, subDirect_cons]
                    rw [if_pos (by simp [addHits_some])]
                    cases t.children.getChild name with
                    | none => simp [subDirect_nil]
                    | some c => simp [subDirect_nil]
                | cons k' ks' =>
                    rw [subDirect_cons]
                    simp only [bumpLeaf_children]
                    rw [getOrCreate_children, subDirect_cons]
                    rw [if_neg (by simp [addHits_some, List.cons_prefix_cons])]
                    cases t.children.getChild name with
                    | none => simp
                    | some c => simp [subDirect_cons]
              · rw [if_neg hAll]
                rw [ih (pathSoFar ++ [name]) (getOrCreate t.children name (pathSoFar ++ [name])) ks]
                rw [subDirect_getOrCreate, subDirect_cons]
                congr 1
                by_cases hc : contig rest = true
                · have htr : truncL rest ≠ [] := by
                    intro h0
                    rw [contig_eq_allEmpty_of_truncL_nil _ h0] at hc
                    exact hAll hc
                  rw [addAtC_some_trunc rest _ hc htr, if_pos hc]
                  simp only [addHits_some, List.cons_prefix_cons]
                  simp
                · rw [addAtC_none_of_contig_false rest _ (contig_false_of_ne rest hc),
                    if_neg hc]
                  simp
            · rw [subDirect_cons]
              simp only [Node.children_mk]
              rw [Forest.getChild_setChild_ne _ _ _ _ hk, ← subDirect_cons]
              have hne2 : ¬ (k :: ks <+: name :: truncL rest) := by
                rw [List.cons_prefix_cons]
                exact fun h => hk h.1.symm
              by_cases hc : contig rest = true
              · rw [if_pos hc]
                simp [addHits_some, hne2]
              · rw [if_neg hc]
                simp

theorem insertWalk_name (v : ℚ) (ls pathSoFar : List String) (t : Node) :
    (insertWalk v ls pathSoFar t).name = t.name := by
  cases ls with
  | nil => rfl
  | cons name rest =>
      by_cases hname : name = ""
      · subst hname
        rw [insertWalk_cons_empty]
        by_cases hcond : allEmpty ("" :: rest) = true ∧ t.name ≠ "Root"
        · rw [if_pos hcond]; rfl
        · rw [if_neg hcond]
      · rw [insertWalk_cons_ne v name rest pathSoFar t hname]
        rfl

theorem foldl_insert_name (cols : Nat) (rs : List Record) :
    ∀ t : Node, (rs.foldl (insertRecord cols) t).name = t.name := by
  induction rs with
  | nil => intro t; rfl
  | cons r rs ih =>
      intro t
      simp only [List.foldl_cons]
      rw [ih, insertRecord, insertWalk_name]

@[simp] theorem rootInit_name : rootInit.name = "Root" := rfl

theorem insertPhase_name (cols : Nat) (rs : List Record) :
    (insertPhase cols rs).name = "Root" := by
  rw [insertPhase, foldl_insert_name]
  rfl

theorem insertPhase_append_one (cols : Nat) (rs : List Record) (r : Record) :
    insertPhase cols (rs ++ [r]) = insertRecord cols (insertPhase cols rs) r := by
  simp [insertPhase, List.foldl_append]

theorem existsAt_insertPhase (cols : Nat) (rs : List Record) (p : List String) :
    existsAt (insertPhase cols rs) p = true ↔
      p = [] ∨ ∃ r ∈ rs, p ≠ [] ∧ p <+: recTrunc cols r := by
  induction rs using List.reverseRecOn with
  | nil =>
      simp only [insertPhase, List.foldl_nil]
      cases p with
      | nil => simp [existsAt_nil]
      | cons k ks => simp [existsAt_cons, rootInit, Forest.getChild_nil]
  | append_singleton l r ih =>
      rw [insertPhase_append_one, insertRecord, existsAt_insertWalk]
      simp only [Bool.or_eq_true, ih, decide_eq_true_eq]
      constructor
      · rintro ((h | ⟨r', hr', h1, h2⟩) | ⟨h1, h2⟩)
        · exact Or.inl h
        · exact Or.inr ⟨r', by simp [hr'], h1, h2⟩
        · exact Or.inr ⟨r, by simp, h1, h2⟩
      · rintro (h | ⟨r', hr', h1, h2⟩)
        · exact Or.inl (Or.inl h)
        · rcases List.mem_append.mp hr' with hm | hm
          · exact Or.inl (Or.inr ⟨r', hm, h1, h2⟩)
          · have heq : r' = r := List.mem_singleton.mp hm
            subst heq
            exact Or.inr ⟨h1, h2⟩

theorem valueAt_insertPhase (cols : Nat) (rs : List Record) (p : List String) :
    valueAt (insertPhase cols rs) p =
      ((rs.map (fun r => if recAdd cols r = some p then r.value else 0)).sum) := by
  induction rs using List.reverseRecOn with
  | nil =>
      simp only [insertPhase, List.foldl_nil, List.map_nil, List.sum_nil]
      cases p with
      | nil => simp [valueAt_nil, rootInit]
      | cons k ks => simp [valueAt_cons, rootInit, Forest.getChild_nil]
  | append_singleton l r ih =>
      rw [insertPhase_append_one, insertRecord, valueAt_insertWalk]
      rw [ih]
      have hname : (insertPhase cols l).name = "Root" := insertPhase_name cols l
      rw [hname]
      simp [recAdd]

theorem subDirect_insertPhase (cols : Nat) (rs : List Record) (p : List String) :
    subDirect (insertPhase cols rs) p =
      ((rs.map (fun r => if addHits (recAdd cols r) p = true then r.value else 0)).sum) := by
  induction rs using List.reverseRecOn with
  | nil =>
      simp only [insertPhase, List.foldl_nil, List.map_nil, List.sum_nil]
      cases p with
      | nil => simp [subDirect_nil, rootInit, directTotal_mk, forestDirectTotal]
      | cons k ks => simp [subDirect_cons, rootInit, Forest.getChild_nil]
  | append_singleton l r ih =>
      rw [insertPhase_append_one, insertRecord, subDirect_insertWalk]
      rw [ih]
      have hname : (insertPhase cols l).name = "Root" := insertPhase_name cols l
      rw [hname]
      simp [recAdd]

theorem update_children (t : Node) :
    (update_parent_values_and_leaf_status t).children = updateForest t.children := by
  cases t with
  | mk n v cs p l =>
      cases cs <;> simp [update_parent_values_and_leaf_status, updateForest]

theorem update_name (t : Node) :
    (update_parent_values_and_leaf_status t).name = t.name := by
  cases t with
  | mk n v cs p l =>
      cases cs <;> simp [update_parent_values_and_leaf_status]

theorem update_isLeaf (t : Node) :
    (update_parent_values_and_leaf_status t).isLeaf = t.children.isNil := by
  cases t with
  | mk n v cs p l =>
      cases cs <;> simp [update_parent_values_and_leaf_status]

theorem updateForest_getChild (cs : Forest) (k : String) :
    (updateForest cs).getChild k =
      (cs.getChild k).map update_parent_values_and_leaf_status := by
  induction cs using Forest.spineInduction with
  | hnil => simp [updateForest]
  | hcons k' c rest ih =>
      by_cases h : k' = k
      · simp [updateForest, Forest.getChild_cons, h]
      · simp [updateForest, Forest.getChild_cons, h, ih]

theorem lookupPath_update (t : Node) (p : List String) :
    lookupPath (update_parent_values_and_leaf_status t) p =
      (lookupPath t p).map update_parent_values_and_leaf_status := by
  induction p generalizing t with
  | nil => simp
  | cons k ks ih =>
      rw [lookupPath_cons, lookupPath_cons, update_children, updateForest_getChild]
      cases t.children.getChild k with
      | none => simp
      | some c => simp [ih]

mutual
theorem update_value_eq : ∀ t : Node,
    (update_parent_values_and_leaf_status t).value = directTotal t
| .mk n v .nil p l => by
    simp [update_parent_values_and_leaf_status, directTotal_mk, forestDirectTotal]
| .mk n v (.cons k c rest) p l => by
    simp only [update_parent_values_and_leaf_status, Node.value_mk, directTotal_mk]
    rw [updateForest_sum_eq (.cons k c rest)]
theorem updateForest_sum_eq : ∀ cs : Forest,
    forestValueSum (updateForest cs) = forestDirectTotal cs
| .nil => by simp [updateForest, forestValueSum, forestDirectTotal]
| .cons k c rest => by
    simp only [updateForest, forestValueSum, forestDirectTotal]
    rw [update_value_eq c, updateForest_sum_eq rest]
end

theorem updateForest_isNil (cs : Forest) : (updateForest cs).isNil = cs.isNil := by
  cases cs <;> simp [updateForest]

theorem Forest.isNil_false_of_getChild (cs : Forest) (k : String) (c : Node)
    (h : cs.getChild k = some c) : cs.isNil = false := by
  cases cs with
  | nil => simp at h
  | cons k' c' rest => simp

theorem insertPhase_children_isNil_false (cols : Nat) (rs : List Record)
    (h : ∃ r ∈ rs, recTrunc cols r ≠ []) :
    (insertPhase cols rs).children.isNil = false := by
  rcases h with ⟨r, hr, htr⟩
  cases htrunc : recTrunc cols r with
  | nil => exact absurd htrunc htr
  | cons s q =>
      have hex : existsAt (insertPhase cols rs) [s] = true := by
        rw [existsAt_insertPhase]
        refine Or.inr ⟨r, hr, by simp, ?_⟩
        rw [htrunc]
        exact ⟨q, rfl⟩
      rw [existsAt, Option.isSome_iff_exists] at hex
      rcases hex with ⟨n, hn⟩
      rw [lookupPath_cons] at hn
      cases hgc : (insertPhase cols rs).children.getChild s with
      | none => rw [hgc] at hn; simp at hn
      | some c => exact Forest.isNil_false_of_getChild _ _ _ hgc

theorem build_tree_unfold (cols : Nat) (rs : List Record) :
    build_tree cols rs =
      (if (update_parent_values_and_leaf_status (insertPhase cols rs)).children.isNil = true
      then (update_parent_values_and_leaf_status (insertPhase cols rs)).setValue 0
      else if |(update_parent_values_and_leaf_status (insertPhase cols rs)).value -
          recordsTotal rs| > rootEps
        then (update_parent_values_and_leaf_status (insertPhase cols rs)).setValue
          (recordsTotal rs)
        else update_parent_values_and_leaf_status (insertPhase cols rs)) := rfl

theorem build_tree_root_close (cols : Nat) (rs : List Record)
    (h : ∃ r ∈ rs, recTrunc cols r ≠ []) :
    |(build_tree cols rs).value - recordsTotal rs| ≤ rootEps := by
  rw [build_tree_unfold]
  have hnil : (update_parent_values_and_leaf_status (insertPhase cols rs)).children.isNil
      = false := by
    rw [update_children, updateForest_isNil]
    exact insertPhase_children_isNil_false cols rs h
  rw [hnil]
  simp only [Bool.false_eq_true, if_false]
  by_cases hgap :
      |(update_parent_values_and_leaf_status (insertPhase cols rs)).value -
        recordsTotal rs| > rootEps
  · rw [if_pos hgap]
    simp [rootEps]
  · rw [if_neg hgap]
    exact le_of_not_lt hgap

theorem nodesOf_eq (n : String) (v : ℚ) (cs : Forest) (p : List String) (l : Bool) :
    nodesOf (Node.mk n v cs p l) = Node.mk n v cs p l :: nodesForest cs := by
  rw [nodesOf]

theorem nodesOf_self_mem (t : Node) : t ∈ nodesOf t := by
  cases t with
  | mk n v cs p l =>
      rw [nodesOf_eq]
      exact List.mem_cons_self _ _

mutual
theorem nodes_update_leaf_iff : ∀ t : Node,
    ∀ m ∈ nodesOf (update_parent_values_and_leaf_status t), m.isLeaf = m.children.isNil
| .mk n v .nil p l => by
    intro m hm
    rw [update_parent_values_and_leaf_status, nodesOf_eq] at hm
    rcases List.mem_cons.mp hm with h | h
    · subst h; simp
    · simp [nodesForest] at h
| .mk n v (.cons k c rest) p l => by
    intro m hm
    rw [update_parent_values_and_leaf_status] at hm
    rw [nodesOf_eq] at hm
    rcases List.mem_cons.mp hm with h | h
    · subst h
      simp [updateForest]
    · exact nodesF_update_leaf_iff (.cons k c rest) m h
theorem nodesF_update_leaf_iff : ∀ cs : Forest,
    ∀ m ∈ nodesForest (updateForest cs), m.isLeaf = m.children.isNil
| .nil => by
    intro m hm
    simp [updateForest, nodesForest] at hm
| .cons k c rest => by
    intro m hm
    rw [updateForest] at hm
    rw [nodesForest] at hm
    rcases List.mem_append.mp hm with h | h
    · exact nodes_update_leaf_iff c m h
    · exact nodesF_update_leaf_iff rest m h
end

theorem nodesOf_setValue (t : Node) (w : ℚ) :
    nodesOf (t.setValue w) = t.setValue w :: nodesForest t.children := by
  cases t with
  | mk n v cs p l =>
      simp [Node.setValue, nodesOf_eq]

theorem mem_nodesOf_of_mem_children (t : Node) (m : Node)
    (h : m ∈ nodesForest t.children) : m ∈ nodesOf t := by
  cases t with
  | mk n v cs p l =>
      rw [nodesOf_eq]
      exact List.mem_cons_of_mem _ (by simpa using h)

theorem nodes_build_tree_leaf_iff (cols : Nat) (rs : List Record) :
    ∀ m ∈ nodesOf (build_tree cols rs), m.isLeaf = m.children.isNil := by
  intro m hm
  rw [build_tree_unfold] at hm
  set t2 := update_parent_values_and_leaf_status (insertPhase cols rs) with ht2
  have key : ∀ w : ℚ, m ∈ nodesOf (t2.setValue w) → m.isLeaf = m.children.isNil := by
    intro w hmw
    rw [nodesOf_setValue] at hmw
    rcases List.mem_cons.mp hmw with h | h
    · subst h
      have hroot := nodes_update_leaf_iff (insertPhase cols rs) t2 (nodesOf_self_mem t2)
      simpa using hroot
    · exact nodes_update_leaf_iff (insertPhase cols rs) m
        (mem_nodesOf_of_mem_children t2 m h)
  by_cases h1 : t2.children.isNil = true
  · rw [if_pos h1] at hm
    exact key 0 hm
  · rw [if_neg h1] at hm
    by_cases h2 : |t2.value - recordsTotal rs| > rootEps
    · rw [if_pos h2] at hm
      exact key (recordsTotal rs) hm
    · rw [if_neg h2] at hm
      exact nodes_update_leaf_iff (insertPhase cols rs) m hm

theorem rowsSum_append (a b : List LeafRow) : rowsSum (a ++ b) = rowsSum a + rowsSum b := by
  simp [rowsSum]

mutual
theorem flatten_pos : ∀ (D : Nat) (cur : List String) (t : Node),
    ∀ row ∈ flatten_original_tree_to_df D cur t, 0 < row.value_plot
| D, cur, .mk n v cs p l => by
    intro row hrow
    rw [flatten_original_tree_to_df] at hrow
    rcases List.mem_append.mp hrow with h | h
    · by_cases hc : l = true ∧ 0 < v
      · rw [if_pos hc] at h
        rcases List.mem_singleton.mp h with rfl
        exact hc.2
      · rw [if_neg hc] at h
        simp at h
    · exact flattenForest_pos D _ cs row h
theorem flattenForest_pos : ∀ (D : Nat) (cur : List String) (cs : Forest),
    ∀ row ∈ flattenForest D cur cs, 0 < row.value_plot
| D, cur, .nil => by
    intro row hrow
    simp [flattenForest] at hrow
| D, cur, .cons k c rest => by
    intro row hrow
    rw [flattenForest] at hrow
    rcases List.mem_append.mp hrow with h | h
    · exact flatten_pos D cur c row h
    · exact flattenForest_pos D cur rest row h
end

mutual
theorem flatten_update_sum : ∀ (D : Nat) (cur : List String) (t : Node),
    rowsSum (flatten_original_tree_to_df D cur (update_parent_values_and_leaf_status t)) =
      leafPosSum t
| D, cur, .mk n v .nil p l => by
    rw [update_parent_values_and_leaf_status, flatten_original_tree_to_df, leafPosSum]
    by_cases hv : 0 < v
    · rw [if_pos ⟨rfl, hv⟩, if_pos hv]
      simp [rowsSum, flattenForest]
    · rw [if_neg (by simp [hv]), if_neg hv]
      simp [rowsSum, flattenForest]
| D, cur, .mk n v (.cons k c rest) p l => by
    rw [update_parent_values_and_leaf_status]
    rw [flatten_original_tree_to_df, leafPosSum]
    rw [if_neg (by simp)]
    simp only [List.nil_append]
    exact flattenForest_update_sum D _ (.cons k c rest)
theorem flattenForest_update_sum : ∀ (D : Nat) (cur : List String) (cs : Forest),
    rowsSum (flattenForest D cur (updateForest cs)) = forestLeafPosSum cs
| D, cur, .nil => by
    simp [updateForest, flattenForest, forestLeafPosSum, rowsSum]
| D, cur, .cons k c rest => by
    rw [updateForest, flattenForest, forestLeafPosSum, rowsSum_append]
    rw [flatten_update_sum D cur c, flattenForest_update_sum D cur rest]
end

theorem prefix_extend (p q : List String) (h : p <+: q) (hne : p ≠ q) :
    p ++ [q.getD p.length ""] <+: q := by
  rcases h with ⟨r, rfl⟩
  cases r with
  | nil => simp at hne
  | cons x r' =>
      have hx : (p ++ x :: r').getD p.length "" = x := by
        rw [List.getD_append_right _ _ _ _ (le_refl _)]
        simp
      rw [hx, List.prefix_append_right_inj]
      exact ⟨r', rfl⟩

theorem Forest.mem_keys_of_getChild_some (cs : Forest) (k : String) (c : Node)
    (h : cs.getChild k = some c) : k ∈ cs.keys := by
  induction cs using Forest.spineInduction with
  | hnil => simp at h
  | hcons k' c' rest ih =>
      rw [Forest.getChild_cons] at h
      by_cases hk : k' = k
      · subst hk
        simp [Forest.keys]
      · rw [if_neg hk] at h
        simp [Forest.keys, ih h]

theorem wellKeyed_iff (t : Node) : wellKeyed t ↔ wellKeyedF t.children := by
  cases t with
  | mk n v cs p l => rw [wellKeyed, Node.children_mk]

theorem wellKeyedF_nil : wellKeyedF .nil := by
  rw [wellKeyedF]
  trivial

theorem wellKeyedF_cons (k : String) (c : Node) (rest : Forest) :
    wellKeyedF (.cons k c rest) ↔ k ∉ rest.keys ∧ wellKeyed c ∧ wellKeyedF rest := by
  rw [wellKeyedF]

theorem wellKeyed_of_getChild (cs : Forest) (k : String) (c : Node)
    (hw : wellKeyedF cs) (h : cs.getChild k = some c) : wellKeyed c := by
  induction cs using Forest.spineInduction with
  | hnil => simp at h
  | hcons k' c' rest ih =>
      rw [Forest.getChild_cons] at h
      rw [wellKeyedF_cons] at hw
      by_cases hk : k' = k
      · rw [if_pos hk] at h
        rcases Option.some.inj h with rfl
        exact hw.2.1
      · rw [if_neg hk] at h
        exact ih hw.2.2 h

theorem Forest.keys_setChild (cs : Forest) (k : String) (n : Node) :
    (cs.setChild k n).keys = if k ∈ cs.keys then cs.keys else cs.keys ++ [k] := by
  induction cs using Forest.spineInduction with
  | hnil => simp [Forest.setChild, Forest.keys]
  | hcons k' c rest ih =>
      by_cases h : k' = k
      · subst h
        simp [Forest.setChild, Forest.keys]
      · have hne : ¬ (k = k') := fun hh => h hh.symm
        simp only [Forest.setChild, if_neg h, Forest.keys, ih, List.mem_cons]
        by_cases hmem : k ∈ rest.keys
        · simp [hmem, hne]
        · simp [hmem, hne, Forest.keys]

theorem wellKeyedF_setChild (cs : Forest) (k : String) (n : Node)
    (hw : wellKeyedF cs) (hn : wellKeyed n) : wellKeyedF (cs.setChild k n) := by
  induction cs using Forest.spineInduction with
  | hnil =>
      rw [Forest.setChild, wellKeyedF_cons]
      exact ⟨by simp [Forest.keys], hn, wellKeyedF_nil⟩
  | hcons k' c rest ih =>
      rw [wellKeyedF_cons] at hw
      by_cases h : k' = k
      · subst h
        rw [Forest.setChild, if_pos rfl, wellKeyedF_cons]
        exact ⟨hw.1, hn, hw.2.2⟩
      · rw [Forest.setChild, if_neg h, wellKeyedF_cons]
        refine ⟨?_, hw.2.1, ih hw.2.2⟩
        rw [Forest.keys_setChild]
        by_cases hmem : k ∈ rest.keys
        · rw [if_pos hmem]
          exact hw.1
        · rw [if_neg hmem]
          intro hcon
          rcases List.mem_append.mp hcon with hcon | hcon
          · exact hw.1 hcon
          · exact h (List.mem_singleton.mp hcon)

theorem wellKeyed_getOrCreate (cs : Forest) (name : String) (newPath : List String)
    (hw : wellKeyedF cs) : wellKeyed (getOrCreate cs name newPath) := by
  rw [wellKeyed_iff, getOrCreate_children]
  cases hgc : cs.getChild name with
  | none => simpa using wellKeyedF_nil
  | some c =>
      have hc := wellKeyed_of_getChild cs name c hw hgc
      rw [wellKeyed_iff] at hc
      simpa using hc

theorem wellKeyed_bumpLeaf (t : Node) (v : ℚ) (h : wellKeyed t) :
    wellKeyed (bumpLeaf t v) := by
  rw [wellKeyed_iff] at h ⊢
  simpa using h

theorem wellKeyed_insertWalk (v : ℚ) (ls : List String) :
    ∀ (pathSoFar : List String) (t : Node), wellKeyed t →
      wellKeyed (insertWalk v ls pathSoFar t) := by
  induction ls with
  | nil => intro _ t h; exact h
  | cons name rest ih =>
      intro pathSoFar t h
      by_cases hname : name = ""
      · subst hname
        rw [insertWalk_cons_empty]
        by_cases hcond : allEmpty ("" :: rest) = true ∧ t.name ≠ "Root"
        · rw [if_pos hcond]
          exact wellKeyed_bumpLeaf t v h
        · rw [if_neg hcond]
          exact h
      · rw [insertWalk_cons_ne v name rest pathSoFar t hname, wellKeyed_iff]
        simp only [Node.children_mk]
        rw [wellKeyed_iff] at h
        apply wellKeyedF_setChild _ _ _ h
        by_cases hAll : allEmpty rest = true
        · rw [if_pos hAll]
          exact wellKeyed_bumpLeaf _ v (wellKeyed_getOrCreate _ _ _ h)
        · rw [if_neg hAll]
          exact ih _ _ (wellKeyed_getOrCreate _ _ _ h)

theorem wellKeyed_insertPhase (cols : Nat) (rs : List Record) :
    wellKeyed (insertPhase cols rs) := by
  have base : wellKeyed rootInit := by
    rw [wellKeyed_iff]
    simpa [rootInit] using wellKeyedF_nil
  rw [insertPhase]
  induction rs using List.reverseRecOn with
  | nil => exact base
  | append_singleton l r ih =>
      rw [List.foldl_append, List.foldl_cons, List.foldl_nil]
      exact wellKeyed_insertWalk _ _ _ _ ih

mutual
theorem reach_node : ∀ t : Node, wellKeyed t → ∀ m ∈ nodesOf t,
    ∃ p, lookupPath t p = some m
| .mk n v cs p0 l => by
    intro hw m hm
    rw [nodesOf_eq] at hm
    rcases List.mem_cons.mp hm with h | h
    · subst h
      exact ⟨[], rfl⟩
    · rw [wellKeyed_iff, Node.children_mk] at hw
      rcases reach_forest cs hw m h with ⟨k, c, q, hgc, hlc⟩
      refine ⟨k :: q, ?_⟩
      rw [lookupPath_cons]
      simp [hgc, hlc]
theorem reach_forest : ∀ cs : Forest, wellKeyedF cs → ∀ m ∈ nodesForest cs,
    ∃ k c q, cs.getChild k = some c ∧ lookupPath c q = some m
| .nil => by
    intro _ m hm
    simp [nodesForest] at hm
| .cons k c rest => by
    intro hw m hm
    rw [wellKeyedF_cons] at hw
    rw [nodesForest] at hm
    rcases List.mem_append.mp hm with h | h
    · rcases reach_node c hw.2.1 m h with ⟨q, hq⟩
      exact ⟨k, c, q, by rw [Forest.getChild_cons]; simp, hq⟩
    · rcases reach_forest rest hw.2.2 m h with ⟨k', c', q, hgc, hlc⟩
      refine ⟨k', c', q, ?_, hlc⟩
      rw [Forest.getChild_cons, if_neg ?_]
      · exact hgc
      · intro he
        subst he
        exact hw.1 (Forest.mem_keys_of_getChild_some _ _ _ hgc)
end

theorem lookupPath_single (m : Node) (k : String) :
    lookupPath m [k] = m.children.getChild k := by
  rw [lookupPath_cons]
  cases m.children.getChild k <;> simp

theorem existsAt_append_one (t : Node) (p : List String) (m : Node) (k : String)
    (h : lookupPath t p = some m) :
    existsAt t (p ++ [k]) = (m.children.getChild k).isSome := by
  rw [existsAt, lookupPath_append, h]
  simp [lookupPath_single]

theorem valueAt_of_lookup (t : Node) (p : List String) (m : Node)
    (h : lookupPath t p = some m) : valueAt t p = m.value := by
  rw [valueAt, h]
  rfl

theorem recAdd_eq_some_trunc (cols : Nat) (r : Record)
    (hc : contig (rowOf cols r) = true) (hne : recTrunc cols r ≠ []) :
    recAdd cols r = some (recTrunc cols r) := by
  rw [recAdd, recTrunc]
  exact addAtC_some_trunc _ _ hc hne

theorem nodes_insertPhase_facts (cols : Nat) (rs : List Record)
    (hrs : rs ≠ [])
    (hcont : ∀ r ∈ rs, contig (rowOf cols r) = true)
    (hne : ∀ r ∈ rs, recTrunc cols r ≠ [])
    (hpos : ∀ r ∈ rs, 0 < r.value)
    (hnp : ∀ r ∈ rs, ∀ r' ∈ rs, recTrunc cols r <+: recTrunc cols r' →
      recTrunc cols r = recTrunc cols r') :
    ∀ m ∈ nodesOf (insertPhase cols rs),
      (m.children.isNil = true → 0 < m.value) ∧
      (m.children.isNil = false → m.value = 0) := by
  intro m hm
  rcases reach_node (insertPhase cols rs) (wellKeyed_insertPhase cols rs) m hm with ⟨p, hp⟩
  have hval : m.value = valueAt (insertPhase cols rs) p := (valueAt_of_lookup _ _ _ hp).symm
  have hsum := valueAt_insertPhase cols rs p
  constructor
  · intro hnil
    have hnochild : ∀ k, existsAt (insertPhase cols rs) (p ++ [k]) = false := by
      intro k
      rw [existsAt_append_one _ _ _ _ hp]
      rw [Forest.isNil_iff_getChild_none] at hnil
      rw [hnil k]
      rfl
    have hpne : p ≠ [] := by
      intro hp0
      subst hp0
      rcases List.exists_mem_of_ne_nil rs hrs with ⟨r, hr⟩
      cases htr : recTrunc cols r with
      | nil => exact hne r hr htr
      | cons s q =>
          have hmem : [s] <+: recTrunc cols r := by
            rw [htr]
            exact ⟨q, rfl⟩
          have hTrue : existsAt (insertPhase cols rs) ([] ++ [s]) = true := by
            rw [existsAt_insertPhase]
            exact Or.inr ⟨r, hr, by simp, by simpa using hmem⟩
          rw [hnochild s] at hTrue
          cases hTrue
    have hpref : ∃ r ∈ rs, p <+: recTrunc cols r := by
      have : existsAt (insertPhase cols rs) p = true := by
        rw [existsAt, hp]
        rfl
      rw [existsAt_insertPhase] at this
      rcases this with h0 | ⟨r, hr, _, hpre⟩
      · exact absurd h0 hpne
      · exact ⟨r, hr, hpre⟩
    rcases hpref with ⟨r, hr, hpre⟩
    have heq : p = recTrunc cols r := by
      by_contra hneq
      have hext := prefix_extend p (recTrunc cols r) hpre hneq
      have : existsAt (insertPhase cols rs)
          (p ++ [(recTrunc cols r).getD p.length ""]) = true := by
        rw [existsAt_insertPhase]
        exact Or.inr ⟨r, hr, by simp, hext⟩
      rw [hnochild _] at this
      cases this
    rw [hval, hsum]
    have hterm : (if recAdd cols r = some p then r.value else 0) = r.value := by
      rw [if_pos]
      rw [recAdd_eq_some_trunc cols r (hcont r hr) (hne r hr), heq]
    calc (0:ℚ) < r.value := hpos r hr
    _ = (if recAdd cols r = some p then r.value else 0) := hterm.symm
    _ ≤ _ := by
        apply List.single_le_sum
        · intro x hx
          rcases List.mem_map.mp hx with ⟨r', hr', rfl⟩
          by_cases hcnd : recAdd cols r' = some p
          · rw [if_pos hcnd]
            exact le_of_lt (hpos r' hr')
          · rw [if_neg hcnd]
        · exact List.mem_map.mpr ⟨r, hr, rfl⟩
  · intro hnotnil
    have hchild : ∃ k c, m.children.getChild k = some c := by
      cases hcs : m.children with
      | nil => rw [hcs] at hnotnil; simp at hnotnil
      | cons k0 c0 rest => exact ⟨k0, c0, by rw [Forest.getChild_cons]; simp⟩
    rcases hchild with ⟨k0, c0, hk0⟩
    have hex : existsAt (insertPhase cols rs) (p ++ [k0]) = true := by
      rw [existsAt_append_one _ _ _ _ hp, hk0]
      rfl
    rw [existsAt_insertPhase] at hex
    rcases hex with h0 | ⟨r', hr', _, hpre'⟩
    · exact absurd h0 (by simp)
    rw [hval, hsum]
    apply List.sum_eq_zero
    intro x hx
    rcases List.mem_map.mp hx with ⟨r'', hr'', rfl⟩
    by_cases hcnd : recAdd cols r'' = some p
    · exfalso
      rw [recAdd_eq_some_trunc cols r'' (hcont r'' hr'') (hne r'' hr'')] at hcnd
      have hp2 : recTrunc cols r'' = p := Option.some.inj hcnd
      have hpp : recTrunc cols r'' <+: recTrunc cols r' := by
        rw [hp2]
        exact ((p.prefix_append [k0]).trans hpre')
      have := hnp r'' hr'' r' hr' hpp
      rw [hp2] at this
      rw [← this] at hpre'
      have hlen := hpre'.length_le
      simp at hlen
    · rw [if_neg hcnd]

mutual
theorem leafPosSum_eq_directTotal : ∀ t : Node,
    (∀ m ∈ nodesOf t, (m.children.isNil = true → 0 < m.value) ∧
      (m.children.isNil = false → m.value = 0)) →
    leafPosSum t = directTotal t
| .mk n v .nil p l => by
    intro hf
    have hself := hf _ (nodesOf_self_mem (.mk n v .nil p l))
    have hv : 0 < v := by simpa using hself.1 (by simp)
    rw [leafPosSum, directTotal_mk, forestDirectTotal, if_pos hv]
    ring
| .mk n v (.cons k c rest) p l => by
    intro hf
    have hself := hf _ (nodesOf_self_mem (.mk n v (.cons k c rest) p l))
    have hv : v = 0 := by simpa using hself.2 (by simp)
    rw [leafPosSum, directTotal_mk, hv, zero_add]
    exact forestLeafPosSum_eq_directTotal (.cons k c rest)
      (fun m hm => hf m (mem_nodesOf_of_mem_children _ m (by simpa using hm)))
theorem forestLeafPosSum_eq_directTotal : ∀ cs : Forest,
    (∀ m ∈ nodesForest cs, (m.children.isNil = true → 0 < m.value) ∧
      (m.children.isNil = false → m.value = 0)) →
    forestLeafPosSum cs = forestDirectTotal cs
| .nil => by
    intro _
    rfl
| .cons k c rest => by
    intro hf
    rw [forestLeafPosSum, forestDirectTotal,
      leafPosSum_eq_directTotal c
        (fun m hm => hf m (by rw [nodesForest]; exact List.mem_append_left _ hm)),
      forestLeafPosSum_eq_directTotal rest
        (fun m hm => hf m (by rw [nodesForest]; exact List.mem_append_right _ hm))]
end

theorem update_insertPhase_value (cols : Nat) (rs : List Record)
    (hcont : ∀ r ∈ rs, contig (rowOf cols r) = true)
    (hne : ∀ r ∈ rs, recTrunc cols r ≠ []) :
    (update_parent_values_and_leaf_status (insertPhase cols rs)).value =
      recordsTotal rs := by
  rw [update_value_eq, ← subDirect_nil, subDirect_insertPhase, recordsTotal]
  apply congrArg List.sum
  apply List.map_congr_left
  intro r hr
  rw [recAdd_eq_some_trunc cols r (hcont r hr) (hne r hr), addHits_some]
  simp

theorem build_tree_eq_update (cols : Nat) (rs : List Record)
    (hrs : rs ≠ [])
    (hcont : ∀ r ∈ rs, contig (rowOf cols r) = true)
    (hne : ∀ r ∈ rs, recTrunc cols r ≠ []) :
    build_tree cols rs = update_parent_values_and_leaf_status (insertPhase cols rs) := by
  rw [build_tree_unfold]
  have hnil : (update_parent_values_and_leaf_status (insertPhase cols rs)).children.isNil
      = false := by
    rw [update_children, updateForest_isNil]
    rcases List.exists_mem_of_ne_nil rs hrs with ⟨r, hr⟩
    exact insertPhase_children_isNil_false cols rs ⟨r, hr, hne r hr⟩
  rw [hnil]
  simp only [Bool.false_eq_true, if_false]
  rw [if_neg]
  rw [update_insertPhase_value cols rs hcont hne]
  simp [rootEps]

theorem flatten_build_tree_sum (cols D : Nat) (cur : List String) (rs : List Record)
    (hrs : rs ≠ [])
    (hcont : ∀ r ∈ rs, contig (rowOf cols r) = true)
    (hne : ∀ r ∈ rs, recTrunc cols r ≠ [])
    (hpos : ∀ r ∈ rs, 0 < r.value)
    (hnp : ∀ r ∈ rs, ∀ r' ∈ rs, recTrunc cols r <+: recTrunc cols r' →
      recTrunc cols r = recTrunc cols r') :
    rowsSum (flatten_original_tree_to_df D cur (build_tree cols rs)) =
      (build_tree cols rs).value := by
  rw [build_tree_eq_update cols rs hrs hcont hne]
  rw [flatten_update_sum, update_value_eq]
  exact leafPosSum_eq_directTotal _
    (nodes_insertPhase_facts cols rs hrs hcont hne hpos hnp)

theorem mem_pandasUniq {α : Type} [DecidableEq α] :
    ∀ (l : List α) (x : α), x ∈ pandasUniq l ↔ x ∈ l
| [], x => by simp [pandasUniq]
| a :: l, x => by
    rw [pandasUniq]
    simp only [List.mem_cons]
    rw [mem_pandasUniq (l.filter (fun b => decide (b ≠ a))) x]
    constructor
    · rintro (rfl | h)
      · exact Or.inl rfl
      · exact Or.inr (List.mem_filter.mp h).1
    · rintro (rfl | h)
      · exact Or.inl rfl
      · by_cases hxa : x = a
        · exact Or.inl hxa
        · exact Or.inr (List.mem_filter.mpr ⟨h, by simpa using hxa⟩)
termination_by l x => l.length
decreasing_by
  exact Nat.lt_succ_of_le (List.length_filter_le _ _)

theorem pandasUniq_eq_nil {α : Type} [DecidableEq α] (l : List α) :
    pandasUniq l = [] ↔ l = [] := by
  cases l with
  | nil => simp [pandasUniq]
  | cons a l => simp [pandasUniq]

theorem pandasUniq_eq_singleton {α : Type} [DecidableEq α] (l : List α) (c : α) :
    pandasUniq l = [c] ↔ (c ∈ l ∧ ∀ x ∈ l, x = c) := by
  cases l with
  | nil => simp [pandasUniq]
  | cons a l =>
      rw [pandasUniq]
      constructor
      · intro h
        have ha : a = c := (List.cons.inj h).1
        have hrest : pandasUniq (l.filter (fun b => decide (b ≠ a))) = [] :=
          (List.cons.inj h).2
        rw [pandasUniq_eq_nil, List.filter_eq_nil_iff] at hrest
        subst ha
        refine ⟨List.mem_cons_self _ _, ?_⟩
        intro x hx
        rcases List.mem_cons.mp hx with rfl | hx
        · rfl
        · have := hrest x hx
          simpa using this
      · rintro ⟨hc, hall⟩
        have ha : a = c := hall a (List.mem_cons_self _ _)
        subst ha
        have hfil : l.filter (fun b => decide (b ≠ a)) = [] := by
          rw [List.filter_eq_nil_iff]
          intro x hx
          simpa using hall x (List.mem_cons_of_mem _ hx)
        rw [hfil]
        simp [pandasUniq]

theorem mem_groupKeys (k : Nat) (rows : List LeafRow) (p : List String) :
    p ∈ groupKeys k rows ↔ ∃ r ∈ rows, parentKey k r = p := by
  rw [groupKeys, mem_pandasUniq]
  simp [List.mem_map]

theorem mem_childCands (k : Nat) (rows : List LeafRow) (p : List String) (c : String) :
    c ∈ ((rows.filter (fun r => decide (parentKey k r = p))).map (childVal k)).filter
        (fun s => decide (s ≠ "")) ↔
      c ≠ "" ∧ ∃ r ∈ rows, parentKey k r = p ∧ childVal k r = c := by
  rw [List.mem_filter]
  simp only [List.mem_map, List.mem_filter, decide_eq_true_eq]
  constructor
  · rintro ⟨⟨r, ⟨hr, hpk⟩, hcv⟩, hne⟩
    exact ⟨hne, r, hr, hpk, hcv⟩
  · rintro ⟨hne, r, hr, hpk, hcv⟩
    exact ⟨⟨r, ⟨hr, hpk⟩, hcv⟩, hne⟩

theorem all_childCands (k : Nat) (rows : List LeafRow) (p : List String) (c : String) :
    (∀ x ∈ ((rows.filter (fun r => decide (parentKey k r = p))).map (childVal k)).filter
        (fun s => decide (s ≠ "")), x = c) ↔
      ∀ r ∈ rows, parentKey k r = p → childVal k r ≠ "" → childVal k r = c := by
  constructor
  · intro h r hr hpk hne
    exact h _ ((mem_childCands k rows p (childVal k r)).mpr ⟨hne, r, hr, hpk, rfl⟩)
  · intro h x hx
    rcases (mem_childCands k rows p x).mp hx with ⟨hne, r, hr, hpk, hcv⟩
    rw [← hcv]
    exact h r hr hpk (by rw [hcv]; exact hne)

theorem uniqueChildrenAt_eq_singleton (k : Nat) (rows : List LeafRow) (p : List String)
    (c : String) :
    uniqueChildrenAt k p rows = [c] ↔
      (c ≠ "" ∧ ∃ r ∈ rows, parentKey k r = p ∧ childVal k r = c) ∧
      (∀ r ∈ rows, parentKey k r = p → childVal k r ≠ "" → childVal k r = c) := by
  rw [uniqueChildrenAt, pandasUniq_eq_singleton, mem_childCands, all_childCands]

theorem parentKey_length (k : Nat) (r : LeafRow) :
    (parentKey k r).length = min k r.levels.length := by
  simp [parentKey]

theorem mem_single_steps_iff (D : Nat) (rows : List LeafRow)
    (hlen : ∀ r ∈ rows, r.levels.length = D) (p : List String) (c : String) :
    (p, c) ∈ single_steps D rows ↔
      p.length < D ∧ c ≠ "" ∧
      (∃ r ∈ rows, parentKey p.length r = p ∧ childVal p.length r = c) ∧
      (∀ r ∈ rows, parentKey p.length r = p → childVal p.length r ≠ "" →
        childVal p.length r = c) := by
  rw [single_steps, List.mem_flatMap]
  constructor
  · rintro ⟨k, hk, hmem⟩
    rw [List.mem_range] at hk
    rcases List.mem_filterMap.mp hmem with ⟨p', hp', hf⟩
    have hshape : p' = p ∧ uniqueChildrenAt k p rows = [c] := by
      cases hu : uniqueChildrenAt k p' rows with
      | nil => rw [hu] at hf; cases hf
      | cons c0 cs =>
          cases cs with
          | nil =>
              rw [hu] at hf
              have h1 : p' = p := congrArg Prod.fst (Option.some.inj hf)
              have h2 : c0 = c := congrArg Prod.snd (Option.some.inj hf)
              refine ⟨h1, ?_⟩
              rw [← h1, hu, h2]
          | cons c1 cs' => rw [hu] at hf; cases hf
    rcases hshape with ⟨-, hu⟩
    rcases (uniqueChildrenAt_eq_singleton k rows p c).mp hu with ⟨⟨hcne, r, hr, hpk, hcv⟩, hall⟩
    have hplen : p.length = k := by
      rw [← hpk, parentKey_length, hlen r hr]
      exact min_eq_left (le_of_lt hk)
    rw [hplen]
    exact ⟨hk, hcne, ⟨r, hr, hpk, hcv⟩, hall⟩
  · rintro ⟨hlt, hcne, ⟨r, hr, hpk, hcv⟩, hall⟩
    refine ⟨p.length, List.mem_range.mpr hlt, ?_⟩
    apply List.mem_filterMap.mpr
    refine ⟨p, ?_, ?_⟩
    · exact (mem_groupKeys p.length rows p).mpr ⟨r, hr, hpk⟩
    · have hu : uniqueChildrenAt p.length p rows = [c] :=
        (uniqueChildrenAt_eq_singleton p.length rows p c).mpr
          ⟨⟨hcne, r, hr, hpk, hcv⟩, hall⟩
      rw [hu]

theorem structuralAux_nil (steps : List (List String × String)) (par : List String) :
    structuralAux steps par [] = [] := by
  simp [structuralAux]

theorem structuralAux_single (steps : List (List String × String)) (par : List String)
    (x : String) : structuralAux steps par [x] = [x] := by
  simp [structuralAux, List.range_succ]

theorem structuralAux_cons (steps : List (List String × String)) (par : List String)
    (x : String) (rest : List String) (h : rest ≠ []) :
    structuralAux steps par (x :: rest) =
      (if (par, x) ∈ steps then [] else [x]) ++ structuralAux steps (par ++ [x]) rest := by
  have hlen : 0 < rest.length := List.length_pos.mpr h
  rw [structuralAux, structuralAux]
  rw [show (x :: rest).length = rest.length + 1 from rfl, List.range_succ_eq_map]
  have htail : List.filterMap
      ((fun i => if (par ++ (x :: rest).take i, (x :: rest).getD i "") ∈ steps ∧
        i ≠ rest.length + 1 - 1 then none else some ((x :: rest).getD i "")) ∘ Nat.succ)
      (List.range rest.length) =
      List.filterMap (fun i => if ((par ++ [x]) ++ rest.take i, rest.getD i "") ∈ steps ∧
        i ≠ rest.length - 1 then none else some (rest.getD i "")) (List.range rest.length) := by
    apply List.filterMap_congr
    intro i _
    simp only [Function.comp_apply, List.take_succ_cons, List.getD_cons_succ,
      List.append_assoc, List.singleton_append]
    have hiff : (Nat.succ i ≠ rest.length + 1 - 1) ↔ (i ≠ rest.length - 1) := by
      omega
    by_cases hmem : (par ++ x :: rest.take i, rest.getD i "") ∈ steps
    · by_cases hlast : i = rest.length - 1
      · rw [if_neg (by rw [hiff]; simp [hlast]), if_neg (by simp [hlast])]
      · rw [if_pos ⟨hmem, hiff.mpr hlast⟩, if_pos ⟨hmem, hlast⟩]
    · rw [if_neg (by intro hand; exact hmem hand.1),
        if_neg (by intro hand; exact hmem hand.1)]
  have hc0main : ((par ++ (x :: rest).take 0, (x :: rest).getD 0 "") ∈ steps ∧
      (0:Nat) ≠ rest.length + 1 - 1) ↔ (par, x) ∈ steps := by
    simp only [List.take_zero, List.append_nil, List.getD_cons_zero]
    constructor
    · intro hand
      exact hand.1
    · intro hmem
      exact ⟨hmem, by omega⟩
  by_cases hx : (par, x) ∈ steps
  · have hf0 : (fun i => if (par ++ List.take i (x :: rest), (x :: rest).getD i "") ∈ steps ∧
        i ≠ rest.length + 1 - 1 then none else some ((x :: rest).getD i "")) 0 = none := by
      simp only [List.take_zero, List.append_nil, List.getD_cons_zero]
      exact if_pos ⟨hx, by omega⟩
    rw [if_pos hx, @List.filterMap_cons_none Nat String
      (fun i => if (par ++ List.take i (x :: rest), (x :: rest).getD i "") ∈ steps ∧
        i ≠ rest.length + 1 - 1 then none else some ((x :: rest).getD i "")) 0
      (List.map Nat.succ (List.range rest.length)) hf0,
      List.filterMap_map, List.nil_append, htail]
  · have hf0 : (fun i => if (par ++ List.take i (x :: rest), (x :: rest).getD i "") ∈ steps ∧
        i ≠ rest.length + 1 - 1 then none else some ((x :: rest).getD i "")) 0 = some x := by
      simp only [List.take_zero, List.append_nil, List.getD_cons_zero]
      exact if_neg (fun hand => hx hand.1)
    rw [if_neg hx, @List.filterMap_cons_some Nat String
      (fun i => if (par ++ List.take i (x :: rest), (x :: rest).getD i "") ∈ steps ∧
        i ≠ rest.length + 1 - 1 then none else some ((x :: rest).getD i "")) 0
      (List.map Nat.succ (List.range rest.length)) x hf0,
      List.filterMap_map, htail, List.singleton_append]

theorem structuralAux_eq_spec (steps : List (List String × String)) :
    ∀ (orig par : List String), structuralAux steps par orig = spec_rewrite steps par orig
| [], par => by
    rw [structuralAux_nil, spec_rewrite]
| [x], par => by
    rw [structuralAux_single, spec_rewrite]
| x :: y :: rest, par => by
    rw [structuralAux_cons steps par x (y :: rest) (by simp), spec_rewrite,
      structuralAux_eq_spec steps (y :: rest) (par ++ [x])]

theorem structural_path_eq_spec (steps : List (List String × String))
    (orig : List String) : structural_path steps orig = spec_rewrite steps [] orig := by
  rw [structural_path, structuralAux_eq_spec]

theorem structuralAux_props (steps : List (List String × String)) :
    ∀ (orig par : List String), orig ≠ [] →
      (structuralAux steps par orig).length ≤ orig.length ∧
      structuralAux steps par orig ≠ [] ∧
      (structuralAux steps par orig).getLastD "" = orig.getLastD ""
| [], par => by
    intro h
    exact absurd rfl h
| [x], par => by
    intro _
    rw [structuralAux_single]
    exact ⟨le_refl _, by simp, rfl⟩
| x :: y :: rest, par => by
    intro _
    have ih := structuralAux_props steps (y :: rest) (par ++ [x]) (by simp)
    rw [structuralAux_cons steps par x (y :: rest) (by simp)]
    refine ⟨?_, ?_, ?_⟩
    · rw [List.length_append]
      have h1 : (if (par, x) ∈ steps then ([] : List String) else [x]).length ≤ 1 := by
        by_cases hx : (par, x) ∈ steps <;> simp [hx]
      have h2 := ih.1
      simp only [List.length_cons] at h2 ⊢
      omega
    · intro hcon
      rcases List.append_eq_nil.mp hcon with ⟨_, h2⟩
      exact ih.2.1 h2
    · rw [List.getLastD_eq_getLast?, List.getLast?_append_of_ne_nil _ ih.2.1,
        ← List.getLastD_eq_getLast?, ih.2.2]
      rw [List.getLastD_eq_getLast?, List.getLastD_eq_getLast?]
      rw [show (x :: y :: rest) = [x] ++ (y :: rest) from rfl,
        List.getLast?_append_of_ne_nil _ (by simp)]

theorem structural_path_props (steps : List (List String × String)) (orig : List String)
    (h : orig ≠ []) :
    (structural_path steps orig).length ≤ orig.length ∧
    structural_path steps orig ≠ [] ∧
    (structural_path steps orig).getLastD "" = orig.getLastD "" := by
  rw [structural_path]
  exact structuralAux_props steps orig [] h

theorem wellNamed_iff (t : Node) : wellNamed t ↔ wellNamedF t.children := by
  cases t with
  | mk n v cs p l => rw [wellNamed, Node.children_mk]

theorem wellNamedF_nil : wellNamedF .nil := by
  rw [wellNamedF]
  trivial

theorem wellNamedF_cons (k : String) (c : Node) (rest : Forest) :
    wellNamedF (.cons k c rest) ↔ c.name = k ∧ wellNamed c ∧ wellNamedF rest := by
  rw [wellNamedF]

theorem wellNamed_of_getChild (cs : Forest) (k : String) (c : Node)
    (hw : wellNamedF cs) (h : cs.getChild k = some c) :
    c.name = k ∧ wellNamed c := by
  induction cs using Forest.spineInduction with
  | hnil => simp at h
  | hcons k' c' rest ih =>
      rw [Forest.getChild_cons] at h
      rw [wellNamedF_cons] at hw
      by_cases hk : k' = k
      · rw [if_pos hk] at h
        rcases Option.some.inj h with rfl
        exact ⟨hk ▸ hw.1, hw.2.1⟩
      · rw [if_neg hk] at h
        exact ih hw.2.2 h

theorem wellNamedF_setChild (cs : Forest) (k : String) (n : Node)
    (hw : wellNamedF cs) (hname : n.name = k) (hn : wellNamed n) :
    wellNamedF (cs.setChild k n) := by
  induction cs using Forest.spineInduction with
  | hnil =>
      rw [Forest.setChild, wellNamedF_cons]
      exact ⟨hname, hn, wellNamedF_nil⟩
  | hcons k' c rest ih =>
      rw [wellNamedF_cons] at hw
      by_cases h : k' = k
      · subst h
        rw [Forest.setChild, if_pos rfl, wellNamedF_cons]
        exact ⟨hname, hn, hw.2.2⟩
      · rw [Forest.setChild, if_neg h, wellNamedF_cons]
        exact ⟨hw.1, hw.2.1, ih hw.2.2⟩

theorem getOrCreate_name_of_wellNamed (cs : Forest) (name : String)
    (newPath : List String) (hw : wellNamedF cs) :
    (getOrCreate cs name newPath).name = name := by
  rw [getOrCreate_name]
  cases hgc : cs.getChild name with
  | none => rfl
  | some c =>
      simp only [Option.map_some', Option.getD_some]
      exact (wellNamed_of_getChild cs name c hw hgc).1

theorem wellNamed_getOrCreate (cs : Forest) (name : String) (newPath : List String)
    (hw : wellNamedF cs) : wellNamed (getOrCreate cs name newPath) := by
  rw [wellNamed_iff, getOrCreate_children]
  cases hgc : cs.getChild name with
  | none => simpa using wellNamedF_nil
  | some c =>
      have hc := (wellNamed_of_getChild cs name c hw hgc).2
      rw [wellNamed_iff] at hc
      simpa using hc

theorem wellNamed_bumpLeaf (t : Node) (v : ℚ) (h : wellNamed t) :
    wellNamed (bumpLeaf t v) := by
  rw [wellNamed_iff] at h ⊢
  simpa using h

theorem wellNamed_insertWalk (v : ℚ) (ls : List String) :
    ∀ (pathSoFar : List String) (t : Node), wellNamed t →
      wellNamed (insertWalk v ls pathSoFar t) := by
  induction ls with
  | nil => intro _ t h; exact h
  | cons name rest ih =>
      intro pathSoFar t h
      by_cases hname : name = ""
      · subst hname
        rw [insertWalk_cons_empty]
        by_cases hcond : allEmpty ("" :: rest) = true ∧ t.name ≠ "Root"
        · rw [if_pos hcond]
          exact wellNamed_bumpLeaf t v h
        · rw [if_neg hcond]
          exact h
      · rw [insertWalk_cons_ne v name rest pathSoFar t hname, wellNamed_iff]
        simp only [Node.children_mk]
        rw [wellNamed_iff] at h
        apply wellNamedF_setChild _ _ _ h
        · by_cases hAll : allEmpty rest = true
          · rw [if_pos hAll]
            rw [bumpLeaf_name]
            exact getOrCreate_name_of_wellNamed _ _ _ h
          · rw [if_neg hAll]
            rw [insertWalk_name]
            exact getOrCreate_name_of_wellNamed _ _ _ h
        · by_cases hAll : allEmpty rest = true
          · rw [if_pos hAll]
            exact wellNamed_bumpLeaf _ v (wellNamed_getOrCreate _ _ _ h)
          · rw [if_neg hAll]
            exact ih _ _ (wellNamed_getOrCreate _ _ _ h)

theorem wellNamed_insertPhase (cols : Nat) (rs : List Record) :
    wellNamed (insertPhase cols rs) := by
  have base : wellNamed rootInit := by
    rw [wellNamed_iff]
    simpa [rootInit] using wellNamedF_nil
  rw [insertPhase]
  induction rs using List.reverseRecOn with
  | nil => exact base
  | append_singleton l r ih =>
      rw [List.foldl_append, List.foldl_cons, List.foldl_nil]
      exact wellNamed_insertWalk _ _ _ _ ih

mutual
theorem wellNamed_update : ∀ t : Node, wellNamed t →
    wellNamed (update_parent_values_and_leaf_status t)
| .mk n v cs p l => by
    intro h
    rw [wellNamed_iff, update_children, Node.children_mk]
    rw [wellNamed_iff, Node.children_mk] at h
    exact wellNamedF_updateForest cs h
theorem wellNamedF_updateForest : ∀ cs : Forest, wellNamedF cs →
    wellNamedF (updateForest cs)
| .nil => by
    intro _
    rw [updateForest]
    exact wellNamedF_nil
| .cons k c rest => by
    intro h
    rw [wellNamedF_cons] at h
    rw [updateForest, wellNamedF_cons]
    exact ⟨by rw [update_name]; exact h.1, wellNamed_update c h.2.1,
      wellNamedF_updateForest rest h.2.2⟩
end

theorem keys_updateForest (cs : Forest) : (updateForest cs).keys = cs.keys := by
  induction cs using Forest.spineInduction with
  | hnil => rw [updateForest]
  | hcons k c rest ih =>
      rw [updateForest, Forest.keys, Forest.keys, ih]

mutual
theorem wellKeyed_update : ∀ t : Node, wellKeyed t →
    wellKeyed (update_parent_values_and_leaf_status t)
| .mk n v cs p l => by
    intro h
    rw [wellKeyed_iff, update_children, Node.children_mk]
    rw [wellKeyed_iff, Node.children_mk] at h
    exact wellKeyedF_updateForest cs h
theorem wellKeyedF_updateForest : ∀ cs : Forest, wellKeyedF cs →
    wellKeyedF (updateForest cs)
| .nil => by
    intro _
    rw [updateForest]
    exact wellKeyedF_nil
| .cons k c rest => by
    intro h
    rw [wellKeyedF_cons] at h
    rw [updateForest, wellKeyedF_cons]
    refine ⟨?_, wellKeyed_update c h.2.1, wellKeyedF_updateForest rest h.2.2⟩
    have : (updateForest rest).keys = rest.keys := keys_updateForest rest
    rw [this]
    exact h.1
end

theorem name_at_path : ∀ (p : List String) (t : Node), wellNamed t →
    ∀ n : Node, lookupPath t p = some n → n.name = p.getLastD t.name := by
  intro p
  induction p with
  | nil =>
      intro t hw n hn
      rcases Option.some.inj hn with rfl
      rfl
  | cons k ks ih =>
      intro t hw n hn
      rw [lookupPath_cons] at hn
      cases hgc : t.children.getChild k with
      | none =>
          rw [hgc] at hn
          simp at hn
      | some c =>
          rw [hgc] at hn
          simp only [Option.some_bind] at hn
          have hwc := wellNamed_of_getChild t.children k c ((wellNamed_iff t).mp hw) hgc
          rw [ih c hwc.2 n hn, hwc.1]
          rw [List.getLastD_cons]

theorem round2_zero : round2 0 = 0 := by
  have h0 : roundHalfEven 0 = 0 := by
    rw [roundHalfEven]
    norm_num
  rw [round2, zero_mul, h0]
  norm_num

theorem format_percentage_of_pos (v T : ℚ) (h : 0 < T) :
    format_percentage v T = round2 (100 * v / T) := by
  rw [format_percentage, if_neg (ne_of_gt h)]
  congr 1
  ring

theorem format_percentage_of_zero (v : ℚ) : format_percentage v 0 = 0 := by
  rw [format_percentage, if_pos rfl]

theorem get_display_text_pct_of_pos (v T : ℚ) (h : 0 < T) :
    get_display_text_pct v T = round2 (100 * v / T) := by
  rw [get_display_text_pct, if_pos (ne_of_gt h)]
  congr 1
  ring

theorem get_display_text_pct_of_zero (v : ℚ) : get_display_text_pct v 0 = 0 := by
  rw [get_display_text_pct]
  simp only [ne_eq, not_true_eq_false]
  rw [if_neg (by simp)]
  exact round2_zero

theorem walkPath_nil (cur : List String) (t : Node) :
    walkPath cur t [] = some (if t.name ≠ "Root" then cur ++ [t.name] else cur) := by
  rw [walkPath]

theorem walkPath_cons (cur : List String) (t : Node) (k : String) (ks : List String) :
    walkPath cur t (k :: ks) =
      (t.children.getChild k).bind
        (fun c => walkPath (if t.name ≠ "Root" then cur ++ [t.name] else cur) c ks) := by
  rw [walkPath]
  cases t.children.getChild k <;> simp

theorem flatten_unfold (D : Nat) (cur : List String) (nm : String) (v : ℚ) (cs : Forest)
    (p0 : List String) (l : Bool) :
    flatten_original_tree_to_df D cur (.mk nm v cs p0 l) =
      (if l = true ∧ 0 < v then
        [⟨(List.range D).map
            (fun i => (if nm ≠ "Root" then cur ++ [nm] else cur).getD i ""), v,
          String.intercalate " > " p0,
          if 1 < p0.length then p0.getLastD "" else nm⟩]
      else []) ++ flattenForest D (if nm ≠ "Root" then cur ++ [nm] else cur) cs := by
  rw [flatten_original_tree_to_df]

mutual
theorem flatten_levels_length : ∀ (t : Node) (D : Nat) (cur : List String),
    ∀ row ∈ flatten_original_tree_to_df D cur t, row.levels.length = D
| .mk nm v cs p0 l => by
    intro D cur row hrow
    rw [flatten_unfold] at hrow
    rcases List.mem_append.mp hrow with h | h
    · by_cases hc : l = true ∧ 0 < v
      · rw [if_pos hc] at h
        rcases List.mem_singleton.mp h with rfl
        simp
      · rw [if_neg hc] at h
        simp at h
    · exact flattenForest_levels_length cs D _ row h
theorem flattenForest_levels_length : ∀ (cs : Forest) (D : Nat) (cur : List String),
    ∀ row ∈ flattenForest D cur cs, row.levels.length = D
| .nil => by
    intro D cur row hrow
    simp [flattenForest] at hrow
| .cons k c rest => by
    intro D cur row hrow
    rw [flattenForest] at hrow
    rcases List.mem_append.mp hrow with h | h
    · exact flatten_levels_length c D cur row h
    · exact flattenForest_levels_length rest D cur row h
end

mutual
theorem mem_flatten_levels : ∀ (t : Node), wellKeyed t → ∀ (D : Nat) (cur lv : List String),
    (∃ row ∈ flatten_original_tree_to_df D cur t, row.levels = lv) ↔
    (∃ (p : List String) (n : Node), lookupPath t p = some n ∧ n.isLeaf = true ∧
      0 < n.value ∧ ∃ q, walkPath cur t p = some q ∧
        lv = (List.range D).map (fun i => q.getD i ""))
| .mk nm v cs p0 l => by
    intro hw D cur lv
    rw [flatten_unfold]
    constructor
    · rintro ⟨row, hrow, hlv⟩
      rcases List.mem_append.mp hrow with h | h
      · by_cases hc : l = true ∧ 0 < v
        · rw [if_pos hc] at h
          rcases List.mem_singleton.mp h with rfl
          refine ⟨[], .mk nm v cs p0 l, rfl, by simpa using hc.1, by simpa using hc.2,
            (if nm ≠ "Root" then cur ++ [nm] else cur), ?_, by simpa using hlv.symm⟩
          rw [walkPath_nil]
          simp
        · rw [if_neg hc] at h
          simp at h
      · rw [wellKeyed_iff, Node.children_mk] at hw
        rcases (mem_flattenForest_levels cs hw D _ lv).mp ⟨row, h, hlv⟩ with
          ⟨k, c, hgc, p, n, hln, hleaf, hval, q, hwalk, hlv2⟩
        refine ⟨k :: p, n, ?_, hleaf, hval, q, ?_, hlv2⟩
        · rw [lookupPath_cons, Node.children_mk, hgc]
          simpa using hln
        · rw [walkPath_cons, Node.children_mk, hgc]
          simpa using hwalk
    · rintro ⟨p, n, hln, hleaf, hval, q, hwalk, hlv⟩
      cases p with
      | nil =>
          rcases Option.some.inj hln with rfl
          rw [walkPath_nil] at hwalk
          rcases Option.some.inj hwalk with rfl
          rw [if_pos (by simp only [Node.isLeaf_mk] at hleaf; exact ⟨hleaf,
            by simpa using hval⟩)]
          refine ⟨_, List.mem_append_left _ (List.mem_singleton.mpr rfl), ?_⟩
          simp only [Node.name_mk]
          exact hlv.symm
      | cons k ks =>
          rw [lookupPath_cons, Node.children_mk] at hln
          rw [walkPath_cons, Node.children_mk] at hwalk
          cases hgc : cs.getChild k with
          | none =>
              rw [hgc] at hln
              simp at hln
          | some c =>
              rw [hgc] at hln hwalk
              simp only [Option.some_bind] at hln hwalk
              rw [wellKeyed_iff, Node.children_mk] at hw
              rcases (mem_flattenForest_levels cs hw D _ lv).mpr
                ⟨k, c, hgc, ks, n, hln, hleaf, hval, q, hwalk, hlv⟩ with
                ⟨row, hrow, hlvr⟩
              exact ⟨row, List.mem_append_right _ hrow, hlvr⟩
theorem mem_flattenForest_levels : ∀ (cs : Forest), wellKeyedF cs →
    ∀ (D : Nat) (cur lv : List String),
    (∃ row ∈ flattenForest D cur cs, row.levels = lv) ↔
    (∃ k c, cs.getChild k = some c ∧ ∃ (p : List String) (n : Node),
      lookupPath c p = some n ∧ n.isLeaf = true ∧ 0 < n.value ∧
      ∃ q, walkPath cur c p = some q ∧ lv = (List.range D).map (fun i => q.getD i ""))
| .nil => by
    intro _ D cur lv
    simp [flattenForest]
| .cons k0 c0 rest => by
    intro hw D cur lv
    rw [wellKeyedF_cons] at hw
    rw [flattenForest]
    constructor
    · rintro ⟨row, hrow, hlv⟩
      rcases List.mem_append.mp hrow with h | h
      · rcases (mem_flatten_levels c0 hw.2.1 D cur lv).mp ⟨row, h, hlv⟩ with
          ⟨p, n, hln, hleaf, hval, q, hwalk, hlv2⟩
        exact ⟨k0, c0, by rw [Forest.getChild_cons, if_pos rfl], p, n, hln, hleaf, hval,
          q, hwalk, hlv2⟩
      · rcases (mem_flattenForest_levels rest hw.2.2 D cur lv).mp ⟨row, h, hlv⟩ with
          ⟨k, c, hgc, hrest⟩
        refine ⟨k, c, ?_, hrest⟩
        rw [Forest.getChild_cons, if_neg ?_]
        · exact hgc
        · intro he
          subst he
          exact hw.1 (Forest.mem_keys_of_getChild_some _ _ _ hgc)
    · rintro ⟨k, c, hgc, hrest⟩
      rw [Forest.getChild_cons] at hgc
      by_cases hk : k0 = k
      · rw [if_pos hk] at hgc
        have hcc : c0 = c := Option.some.inj hgc
        rw [← hcc] at hrest
        rcases (mem_flatten_levels c0 hw.2.1 D cur lv).mpr hrest with ⟨row, hrow, hlvr⟩
        exact ⟨row, List.mem_append_left _ hrow, hlvr⟩
      · rw [if_neg hk] at hgc
        rcases (mem_flattenForest_levels rest hw.2.2 D cur lv).mpr ⟨k, c, hgc, hrest⟩ with
          ⟨row, hrow, hlvr⟩
        exact ⟨row, List.mem_append_right _ hrow, hlvr⟩
end

theorem walkPath_eq_filter : ∀ (p : List String) (t : Node), wellNamed t →
    (lookupPath t p).isSome = true →
    ∀ cur, walkPath cur t p =
      some (cur ++ (t.name :: p).filter (fun s => decide (s ≠ "Root"))) := by
  intro p
  induction p with
  | nil =>
      intro t hw _ cur
      rw [walkPath_nil, List.filter_cons, List.filter_nil]
      by_cases hnm : t.name = "Root"
      · rw [if_neg (by simp [hnm]), if_neg (by simpa using hnm)]
        simp
      · rw [if_pos (by simpa using hnm), if_pos (by simpa using hnm)]
  | cons k ks ih =>
      intro t hw hex cur
      rw [lookupPath_cons] at hex
      cases hgc : t.children.getChild k with
      | none =>
          rw [hgc] at hex
          simp at hex
      | some c =>
          rw [hgc] at hex
          simp only [Option.some_bind] at hex
          have hwc := wellNamed_of_getChild t.children k c ((wellNamed_iff t).mp hw) hgc
          rw [walkPath_cons, hgc]
          simp only [Option.some_bind]
          rw [ih c hwc.2 hex _]
          rw [hwc.1]
          congr 1
          have hsplit : (t.name :: k :: ks).filter (fun s => decide (s ≠ "Root")) =
              ([t.name].filter (fun s => decide (s ≠ "Root"))) ++
              ((k :: ks).filter (fun s => decide (s ≠ "Root"))) := by
            rw [show (t.name :: k :: ks) = [t.name] ++ (k :: ks) from rfl,
              List.filter_append]
          rw [hsplit]
          by_cases hnm : t.name = "Root"
          · rw [if_neg (by simp [hnm])]
            simp [List.filter_cons, hnm]
          · rw [if_pos (by simpa using hnm)]
            simp [List.filter_cons, hnm]

theorem existsAt_insertPhase_perm (cols : Nat) (rs rs' : List Record)
    (h : rs.Perm rs') (p : List String) :
    existsAt (insertPhase cols rs) p = existsAt (insertPhase cols rs') p := by
  rw [Bool.eq_iff_iff, existsAt_insertPhase, existsAt_insertPhase]
  simp only [h.mem_iff]

theorem subDirect_insertPhase_perm (cols : Nat) (rs rs' : List Record)
    (h : rs.Perm rs') (p : List String) :
    subDirect (insertPhase cols rs) p = subDirect (insertPhase cols rs') p := by
  rw [subDirect_insertPhase, subDirect_insertPhase]
  exact (h.map _).sum_eq

theorem recordsTotal_perm (rs rs' : List Record) (h : rs.Perm rs') :
    recordsTotal rs = recordsTotal rs' := by
  rw [recordsTotal, recordsTotal]
  exact (h.map _).sum_eq

theorem childrenNil_at_perm (cols : Nat) (rs rs' : List Record) (h : rs.Perm rs')
    (p : List String) (n n' : Node)
    (hn : lookupPath (insertPhase cols rs) p = some n)
    (hn' : lookupPath (insertPhase cols rs') p = some n') :
    n.children.isNil = n'.children.isNil := by
  rw [Bool.eq_iff_iff, Forest.isNil_iff_getChild_none, Forest.isNil_iff_getChild_none]
  have key : ∀ k, (n.children.getChild k = none ↔ n'.children.getChild k = none) := by
    intro k
    have h1 := existsAt_append_one _ p n k hn
    have h2 := existsAt_append_one _ p n' k hn'
    have h3 := existsAt_insertPhase_perm cols rs rs' h (p ++ [k])
    rw [h1, h2] at h3
    constructor
    · intro hk
      cases hgc : n'.children.getChild k with
      | none => rfl
      | some c =>
          rw [hk, hgc] at h3
          simp at h3
    · intro hk
      cases hgc : n.children.getChild k with
      | none => rfl
      | some c =>
          rw [hk, hgc] at h3
          simp at h3
  constructor
  · intro hall k
    exact (key k).mp (hall k)
  · intro hall k
    exact (key k).mpr (hall k)

theorem lookupPath_setValue (t : Node) (w : ℚ) (k : String) (ks : List String) :
    lookupPath (t.setValue w) (k :: ks) = lookupPath t (k :: ks) := by
  rw [lookupPath_cons, lookupPath_cons, Node.children_setValue]

theorem build_tree_name (cols : Nat) (rs : List Record) :
    (build_tree cols rs).name = "Root" := by
  rw [build_tree_unfold]
  by_cases h1 :
      (update_parent_values_and_leaf_status (insertPhase cols rs)).children.isNil = true
  · rw [if_pos h1, Node.name_setValue, update_name, insertPhase_name]
  · rw [if_neg h1]
    by_cases h2 : |(update_parent_values_and_leaf_status (insertPhase cols rs)).value -
        recordsTotal rs| > rootEps
    · rw [if_pos h2, Node.name_setValue, update_name, insertPhase_name]
    · rw [if_neg h2, update_name, insertPhase_name]

theorem build_tree_isLeaf (cols : Nat) (rs : List Record) :
    (build_tree cols rs).isLeaf = (insertPhase cols rs).children.isNil := by
  rw [build_tree_unfold]
  by_cases h1 :
      (update_parent_values_and_leaf_status (insertPhase cols rs)).children.isNil = true
  · rw [if_pos h1, Node.isLeaf_setValue, update_isLeaf]
  · rw [if_neg h1]
    by_cases h2 : |(update_parent_values_and_leaf_status (insertPhase cols rs)).value -
        recordsTotal rs| > rootEps
    · rw [if_pos h2, Node.isLeaf_setValue, update_isLeaf]
    · rw [if_neg h2, update_isLeaf]

theorem build_tree_children (cols : Nat) (rs : List Record) :
    (build_tree cols rs).children = updateForest (insertPhase cols rs).children := by
  rw [build_tree_unfold]
  by_cases h1 :
      (update_parent_values_and_leaf_status (insertPhase cols rs)).children.isNil = true
  · rw [if_pos h1, Node.children_setValue, update_children]
  · rw [if_neg h1]
    by_cases h2 : |(update_parent_values_and_leaf_status (insertPhase cols rs)).value -
        recordsTotal rs| > rootEps
    · rw [if_pos h2, Node.children_setValue, update_children]
    · rw [if_neg h2, update_children]

theorem build_tree_value_eq (cols : Nat) (rs : List Record) :
    (build_tree cols rs).value =
      (if (insertPhase cols rs).children.isNil = true then 0
      else if |subDirect (insertPhase cols rs) [] - recordsTotal rs| > rootEps then
        recordsTotal rs
      else subDirect (insertPhase cols rs) []) := by
  have hval : (update_parent_values_and_leaf_status (insertPhase cols rs)).value =
      subDirect (insertPhase cols rs) [] := by
    rw [update_value_eq, subDirect_nil]
  have hnil : (update_parent_values_and_leaf_status (insertPhase cols rs)).children.isNil =
      (insertPhase cols rs).children.isNil := by
    rw [update_children, updateForest_isNil]
  rw [build_tree_unfold]
  by_cases h1 : (insertPhase cols rs).children.isNil = true
  · rw [if_pos (by rw [hnil]; exact h1), if_pos h1, Node.value_setValue]
  · rw [if_neg (by rw [hnil]; exact h1), if_neg h1]
    by_cases h2 : |subDirect (insertPhase cols rs) [] - recordsTotal rs| > rootEps
    · rw [if_pos (by rw [hval]; exact h2), if_pos h2, Node.value_setValue]
    · rw [if_neg (by rw [hval]; exact h2), if_neg h2, hval]

theorem build_tree_lookup_cons (cols : Nat) (rs : List Record) (k : String)
    (ks : List String) :
    lookupPath (build_tree cols rs) (k :: ks) =
      (lookupPath (insertPhase cols rs) (k :: ks)).map
        update_parent_values_and_leaf_status := by
  rw [← lookupPath_update]
  rw [lookupPath_cons, lookupPath_cons, build_tree_children, update_children]

theorem nodeSummary_build_tree_perm (cols : Nat) (rs rs' : List Record)
    (h : rs.Perm rs') (p : List String) :
    nodeSummary (build_tree cols rs) p = nodeSummary (build_tree cols rs') p := by
  cases p with
  | nil =>
      rw [nodeSummary, nodeSummary]
      simp only [lookupPath_nil, Option.map_some', Option.some.injEq, Prod.mk.injEq]
      refine ⟨?_, ?_, ?_⟩
      · rw [build_tree_name, build_tree_name]
      · rw [build_tree_value_eq, build_tree_value_eq,
          childrenNil_at_perm cols rs rs' h [] _ _ rfl rfl,
          subDirect_insertPhase_perm cols rs rs' h [], recordsTotal_perm rs rs' h]
      · rw [build_tree_isLeaf, build_tree_isLeaf,
          childrenNil_at_perm cols rs rs' h [] _ _ rfl rfl]
  | cons k ks =>
      rw [nodeSummary, nodeSummary, build_tree_lookup_cons, build_tree_lookup_cons]
      have hex := existsAt_insertPhase_perm cols rs rs' h (k :: ks)
      rw [existsAt, existsAt] at hex
      cases hn : lookupPath (insertPhase cols rs) (k :: ks) with
      | none =>
          rw [hn] at hex
          cases hn' : lookupPath (insertPhase cols rs') (k :: ks) with
          | none => rfl
          | some n' =>
              rw [hn'] at hex
              simp at hex
      | some n =>
          rw [hn] at hex
          cases hn' : lookupPath (insertPhase cols rs') (k :: ks) with
          | none =>
              rw [hn'] at hex
              simp at hex
          | some n' =>
              simp only [Option.map_some', Option.some.injEq, Prod.mk.injEq]
              refine ⟨?_, ?_, ?_⟩
              · rw [update_name, update_name,
                  name_at_path (k :: ks) _ (wellNamed_insertPhase cols rs) n hn,
                  name_at_path (k :: ks) _ (wellNamed_insertPhase cols rs') n' hn',
                  insertPhase_name, insertPhase_name]
              · have h1 : directTotal n = subDirect (insertPhase cols rs) (k :: ks) := by
                  rw [subDirect, hn]
                  rfl
                have h2 : directTotal n' = subDirect (insertPhase cols rs') (k :: ks) := by
                  rw [subDirect, hn']
                  rfl
                rw [update_value_eq, update_value_eq, h1, h2,
                  subDirect_insertPhase_perm cols rs rs' h]
              · rw [update_isLeaf, update_isLeaf,
                  childrenNil_at_perm cols rs rs' h (k :: ks) n n' hn hn']

theorem wellKeyed_setValue (t : Node) (w : ℚ) (h : wellKeyed t) :
    wellKeyed (t.setValue w) := by
  rw [wellKeyed_iff] at h ⊢
  rw [Node.children_setValue]
  exact h

theorem wellNamed_setValue (t : Node) (w : ℚ) (h : wellNamed t) :
    wellNamed (t.setValue w) := by
  rw [wellNamed_iff] at h ⊢
  rw [Node.children_setValue]
  exact h

theorem wellKeyed_build_tree (cols : Nat) (rs : List Record) :
    wellKeyed (build_tree cols rs) := by
  have h2 : wellKeyed (update_parent_values_and_leaf_status (insertPhase cols rs)) :=
    wellKeyed_update _ (wellKeyed_insertPhase cols rs)
  rw [build_tree_unfold]
  by_cases h1 :
      (update_parent_values_and_leaf_status (insertPhase cols rs)).children.isNil = true
  · rw [if_pos h1]
    exact wellKeyed_setValue _ _ h2
  · rw [if_neg h1]
    by_cases hgap : |(update_parent_values_and_leaf_status (insertPhase cols rs)).value -
        recordsTotal rs| > rootEps
    · rw [if_pos hgap]
      exact wellKeyed_setValue _ _ h2
    · rw [if_neg hgap]
      exact h2

theorem wellNamed_build_tree (cols : Nat) (rs : List Record) :
    wellNamed (build_tree cols rs) := by
  have h2 : wellNamed (update_parent_values_and_leaf_status (insertPhase cols rs)) :=
    wellNamed_update _ (wellNamed_insertPhase cols rs)
  rw [build_tree_unfold]
  by_cases h1 :
      (update_parent_values_and_leaf_status (insertPhase cols rs)).children.isNil = true
  · rw [if_pos h1]
    exact wellNamed_setValue _ _ h2
  · rw [if_neg h1]
    by_cases hgap : |(update_parent_values_and_leaf_status (insertPhase cols rs)).value -
        recordsTotal rs| > rootEps
    · rw [if_pos hgap]
      exact wellNamed_setValue _ _ h2
    · rw [if_neg hgap]
      exact h2

theorem flatten_build_tree_levels_iff (cols D : Nat) (rs : List Record) (lv : List String) :
    (∃ row ∈ flatten_original_tree_to_df D [] (build_tree cols rs), row.levels = lv) ↔
    (∃ (p : List String) (nm : String) (val : ℚ) (lf : Bool),
      nodeSummary (build_tree cols rs) p = some (nm, val, lf) ∧ lf = true ∧ 0 < val ∧
      lv = (List.range D).map
        (fun i => (p.filter (fun s => decide (s ≠ "Root"))).getD i "")) := by
  rw [mem_flatten_levels (build_tree cols rs) (wellKeyed_build_tree cols rs) D [] lv]
  constructor
  · rintro ⟨p, n, hln, hleaf, hval, q, hwalk, hlv⟩
    refine ⟨p, n.name, n.value, n.isLeaf, ?_, hleaf, hval, ?_⟩
    · rw [nodeSummary, hln]
      rfl
    · have hwf := walkPath_eq_filter p (build_tree cols rs) (wellNamed_build_tree cols rs)
        (by rw [hln]; rfl) []
      rw [hwf] at hwalk
      rcases Option.some.inj hwalk with rfl
      rw [hlv]
      rw [build_tree_name, List.nil_append, List.filter_cons]
      rw [if_neg (by simp)]
  · rintro ⟨p, nm, val, lf, hsum, hlf, hval, hlv⟩
    rw [nodeSummary] at hsum
    cases hln : lookupPath (build_tree cols rs) p with
    | none =>
        rw [hln] at hsum
        cases hsum
    | some n =>
        rw [hln] at hsum
        simp only [Option.map_some', Option.some.injEq, Prod.mk.injEq] at hsum
        refine ⟨p, n, hln, by rw [hsum.2.2]; exact hlf, by rw [hsum.2.1]; exact hval,
          (p.filter (fun s => decide (s ≠ "Root"))), ?_, hlv⟩
        have hwf := walkPath_eq_filter p (build_tree cols rs) (wellNamed_build_tree cols rs)
          (by rw [hln]; rfl) []
        rw [hwf, build_tree_name, List.nil_append, List.filter_cons]
        rw [if_neg (by simp)]

theorem flatten_build_tree_levels_perm (cols D : Nat) (rs rs' : List Record)
    (h : rs.Perm rs') (lv : List String) :
    (∃ row ∈ flatten_original_tree_to_df D [] (build_tree cols rs), row.levels = lv) ↔
    (∃ row ∈ flatten_original_tree_to_df D [] (build_tree cols rs'), row.levels = lv) := by
  rw [flatten_build_tree_levels_iff, flatten_build_tree_levels_iff]
  constructor
  · rintro ⟨p, nm, val, lf, hsum, hrest⟩
    exact ⟨p, nm, val, lf, by rw [← nodeSummary_build_tree_perm cols rs rs' h p]; exact hsum,
      hrest⟩
  · rintro ⟨p, nm, val, lf, hsum, hrest⟩
    exact ⟨p, nm, val, lf, by rw [nodeSummary_build_tree_perm cols rs rs' h p]; exact hsum,
      hrest⟩

theorem single_steps_build_tree_perm (cols D : Nat) (rs rs' : List Record)
    (h : rs.Perm rs') (s : List String × String) :
    s ∈ single_steps D (flatten_original_tree_to_df D [] (build_tree cols rs)) ↔
    s ∈ single_steps D (flatten_original_tree_to_df D [] (build_tree cols rs')) := by
  rcases s with ⟨p, c⟩
  rw [mem_single_steps_iff D _ (flatten_levels_length (build_tree cols rs) D []) p c,
    mem_single_steps_iff D _ (flatten_levels_length (build_tree cols rs') D []) p c]
  have hlv := flatten_build_tree_levels_perm cols D rs rs' h
  constructor
  · rintro ⟨h1, h2, ⟨r, hr, hpk, hcv⟩, h4⟩
    rcases (hlv r.levels).mp ⟨r, hr, rfl⟩ with ⟨r', hr', hlev⟩
    refine ⟨h1, h2, ⟨r', hr', ?_, ?_⟩, ?_⟩
    · rw [parentKey, hlev, ← parentKey, hpk]
    · rw [childVal, hlev, ← childVal, hcv]
    · intro r2 hr2 hpk2 hne2
      rcases (hlv r2.levels).mpr ⟨r2, hr2, rfl⟩ with ⟨r3, hr3, hlev3⟩
      have e1 : parentKey p.length r2 = parentKey p.length r3 := by
        rw [parentKey, parentKey, hlev3]
      have e2 : childVal p.length r2 = childVal p.length r3 := by
        rw [childVal, childVal, hlev3]
      rw [e2]
      apply h4 r3 hr3
      · rw [← e1]
        exact hpk2
      · rw [← e2]
        exact hne2
  · rintro ⟨h1, h2, ⟨r, hr, hpk, hcv⟩, h4⟩
    rcases (hlv r.levels).mpr ⟨r, hr, rfl⟩ with ⟨r', hr', hlev⟩
    refine ⟨h1, h2, ⟨r', hr', ?_, ?_⟩, ?_⟩
    · rw [parentKey, hlev, ← parentKey, hpk]
    · rw [childVal, hlev, ← childVal, hcv]
    · intro r2 hr2 hpk2 hne2
      rcases (hlv r2.levels).mp ⟨r2, hr2, rfl⟩ with ⟨r3, hr3, hlev3⟩
      have e1 : parentKey p.length r2 = parentKey p.length r3 := by
        rw [parentKey, parentKey, hlev3]
      have e2 : childVal p.length r2 = childVal p.length r3 := by
        rw [childVal, childVal, hlev3]
      rw [e2]
      apply h4 r3 hr3
      · rw [← e1]
        exact hpk2
      · rw [← e2]
        exact hne2

theorem recAdd_ne_some_nil (cols : Nat) (r : Record) : recAdd cols r ≠ some [] := by
  rw [recAdd, addAtC]
  by_cases h1 : rowOf cols r = []
  · rw [if_pos h1]
    simp
  · rw [if_neg h1]
    by_cases h2 : contig (rowOf cols r) = false
    · rw [if_pos h2]
      simp
    · rw [if_neg h2]
      by_cases h3 : truncL (rowOf cols r) = []
      · rw [if_pos h3]
        simp
      · rw [if_neg h3]
        simp [h3]

theorem valueAt_insertPhase_nil (cols : Nat) (rs : List Record) :
    valueAt (insertPhase cols rs) [] = 0 := by
  rw [valueAt_insertPhase]
  apply List.sum_eq_zero
  intro x hx
  rcases List.mem_map.mp hx with ⟨r, hr, rfl⟩
  rw [if_neg (recAdd_ne_some_nil cols r)]

theorem insertWalk_allEmpty (v : ℚ) (ls pathSoFar : List String) (t : Node)
    (hname : t.name = "Root") (hall : allEmpty ls = true) :
    insertWalk v ls pathSoFar t = t := by
  cases ls with
  | nil => rfl
  | cons s rest =>
      have hs : s = "" := by
        rw [allEmpty_cons] at hall
        simpa using (Bool.and_eq_true_iff.mp hall).1
      subst hs
      rw [insertWalk_cons_empty, if_neg]
      intro hcond
      exact hcond.2 hname

theorem insertRecord_allEmpty (cols : Nat) (t : Node) (r : Record)
    (hname : t.name = "Root") (hall : allEmpty (rowOf cols r) = true) :
    insertRecord cols t r = t :=
  insertWalk_allEmpty r.value (rowOf cols r) ["Root"] t hname hall

/-- Claim C1, counterexample: for the single aggregated record whose hierarchy
path is entirely empty (value 10), build_tree leaves the root at value 0 (the
empty-tree branch runs before the fallback), so root.value does not equal the
record total within the 1e-6 tolerance — the claimed "equality holds in every
case" fails. -/
theorem claim1_counterexample :
    ¬ (|(build_tree 4 [⟨["", "", "", ""], 10⟩]).value -
        recordsTotal [⟨["", "", "", ""], 10⟩]| ≤ rootEps) := by
  simp [build_tree, insertPhase, insertRecord, rowOf, insertWalk, rootInit,
    update_parent_values_and_leaf_status, updateForest, forestValueSum, recordsTotal,
    Forest.getChild, Forest.setChild, Forest.isNil, Node.setValue, rootEps, allEmpty,
    getOrCreate, bumpLeaf, List.range_succ]
  norm_num

/-- Claim C1, amended: after build_tree on any aggregated record set in which
at least one record has a non-empty hierarchy path, root.value equals the sum
of all record values within the 1e-6 tolerance (by the recomputation or, on a
larger mismatch, by the substituted externally computed total).  When every
record's path is empty the root has no children and its value is set to 0
instead, as the counterexample shows. -/
theorem claim1_amended_root_sum (cols : Nat) (rs : List Record)
    (h : ∃ r ∈ rs, recTrunc cols r ≠ []) :
    |(build_tree cols rs).value - recordsTotal rs| ≤ rootEps :=
  build_tree_root_close cols rs h

/-- Witness for the amended claim C1 at a concrete input. -/
theorem claim1_amended_root_sum_witness :
    |(build_tree 4 [⟨["A"], 5⟩]).value - recordsTotal [⟨["A"], 5⟩]| ≤ rootEps :=
  claim1_amended_root_sum 4 [⟨["A"], 5⟩] (by decide)

/-- Claim C2: for rows of the flattened DataFrame (all carrying D level
columns), the pair (parentPath, childName) is produced by the single-step
analysis exactly when the parent path is shorter than D and, among the rows
reaching depth k+1 under that parent (k the parent's length; rows whose level
k is empty are ignored), the non-empty child name at position k exists and is
the unique one — hence no false positives and no false negatives. -/
theorem claim2_single_step_iff (D : Nat) (rows : List LeafRow)
    (hlen : ∀ r ∈ rows, r.levels.length = D) (p : List String) (c : String) :
    (p, c) ∈ single_steps D rows ↔
      p.length < D ∧ c ≠ "" ∧
      (∃ r ∈ rows, parentKey p.length r = p ∧ childVal p.length r = c) ∧
      (∀ r ∈ rows, parentKey p.length r = p → childVal p.length r ≠ "" →
        childVal p.length r = c) :=
  mem_single_steps_iff D rows hlen p c

/-- Witness for claim C2 at a concrete one-row input. -/
theorem claim2_single_step_iff_witness :
    ((["A"], "X") ∈ single_steps 2 [LeafRow.mk ["A", "X"] 10 "p" "X"] ↔
      (["A"] : List String).length < 2 ∧ "X" ≠ "" ∧
      (∃ r ∈ [LeafRow.mk ["A", "X"] 10 "p" "X"],
        parentKey (["A"] : List String).length r = ["A"] ∧
        childVal (["A"] : List String).length r = "X") ∧
      (∀ r ∈ [LeafRow.mk ["A", "X"] 10 "p" "X"],
        parentKey (["A"] : List String).length r = ["A"] →
        childVal (["A"] : List String).length r ≠ "" →
        childVal (["A"] : List String).length r = "X")) :=
  claim2_single_step_iff 2 [LeafRow.mk ["A", "X"] 10 "p" "X"] (by decide) ["A"] "X"

/-- Claim C3: the structural path rewriter of the code agrees with the spec's
scan (omit P[i] exactly when (P[0..i), P[i]) is a recorded single-step and i
is not the last index; the final element is always appended), and in
Scenario B — the single record (["A","X"], 10) at depth 2 — both ((), "A")
and (("A"), "X") are single-steps, the flattened leaf row keeps the original
path string "Root > A > X" (which references "A > X") and the original leaf
label "X" used for the display text, and the structural path becomes ["X"]. -/
theorem claim3_rewriter_scan_and_scenarioB :
    (∀ (steps : List (List String × String)) (orig : List String),
      structural_path steps orig = spec_rewrite steps [] orig) ∧
    flatten_original_tree_to_df 2 [] (build_tree 2 [⟨["A", "X"], 10⟩]) =
      [⟨["A", "X"], 10, "Root > A > X", "X"⟩] ∧
    ([], "A") ∈ single_steps 2
      (flatten_original_tree_to_df 2 [] (build_tree 2 [⟨["A", "X"], 10⟩])) ∧
    (["A"], "X") ∈ single_steps 2
      (flatten_original_tree_to_df 2 [] (build_tree 2 [⟨["A", "X"], 10⟩])) ∧
    orig_path_components ⟨["A", "X"], 10, "Root > A > X", "X"⟩ = ["A", "X"] ∧
    structural_path (single_steps 2
      (flatten_original_tree_to_df 2 [] (build_tree 2 [⟨["A", "X"], 10⟩])))
      ["A", "X"] = ["X"] := by
  have hflat : flatten_original_tree_to_df 2 [] (build_tree 2 [⟨["A", "X"], 10⟩]) =
      [⟨["A", "X"], 10, "Root > A > X", "X"⟩] := by
    simp [build_tree, insertPhase, insertRecord, rowOf, insertWalk, rootInit,
      update_parent_values_and_leaf_status, updateForest, forestValueSum, recordsTotal,
      Forest.getChild, Forest.setChild, Forest.isNil, Node.setValue, rootEps, allEmpty,
      getOrCreate, bumpLeaf, List.range_succ, flatten_original_tree_to_df, flattenForest,
      String.intercalate, String.intercalate.go]
  have hsteps : single_steps 2
      (flatten_original_tree_to_df 2 [] (build_tree 2 [⟨["A", "X"], 10⟩])) =
      [([], "A"), (["A"], "X")] := by
    rw [hflat]
    simp [single_steps, groupKeys, uniqueChildrenAt, pandasUniq, parentKey, childVal,
      List.range_succ]
  refine ⟨structural_path_eq_spec, hflat, ?_, ?_, ?_, ?_⟩
  · rw [hsteps]
    simp
  · rw [hsteps]
    simp
  · simp [orig_path_components]
  · rw [hsteps]
    decide

/-- Claim C4: for every non-empty original path, the rewriter's output is at
most as long as the original path, is never empty, and ends in the original
path's last element. -/
theorem claim4_rewriter_guarantees (steps : List (List String × String))
    (orig : List String) (h : orig ≠ []) :
    (structural_path steps orig).length ≤ orig.length ∧
    structural_path steps orig ≠ [] ∧
    (structural_path steps orig).getLastD "" = orig.getLastD "" :=
  structural_path_props steps orig h

/-- Witness for claim C4 at a concrete input. -/
theorem claim4_rewriter_guarantees_witness :
    (structural_path [] ["A", "B"]).length ≤ (["A", "B"] : List String).length ∧
    structural_path [] ["A", "B"] ≠ [] ∧
    (structural_path [] ["A", "B"]).getLastD "" = (["A", "B"] : List String).getLastD "" :=
  claim4_rewriter_guarantees [] ["A", "B"] (by decide)

/-- Claim C5: in the tree returned by build_tree every node's is_leaf flag
equals "has no children" (so a node with children is never a leaf even when a
record gave it a direct value), and in Scenario C — records (["A"], 7) and
(["A","X"], 3) — node A has value 10 (direct 7 merged with subtree 3) and is
not a leaf, while its child X has value 3 and is a leaf. -/
theorem claim5_leaf_classification :
    (∀ (cols : Nat) (rs : List Record), ∀ m ∈ nodesOf (build_tree cols rs),
      m.isLeaf = m.children.isNil) ∧
    nodeSummary (build_tree 2 [Record.mk ["A"] 7, Record.mk ["A", "X"] 3]) ["A"] =
      some ("A", 10, false) ∧
    nodeSummary (build_tree 2 [Record.mk ["A"] 7, Record.mk ["A", "X"] 3]) ["A", "X"] =
      some ("X", 3, true) := by
  refine ⟨nodes_build_tree_leaf_iff, ?_, ?_⟩
  · simp [build_tree, insertPhase, insertRecord, rowOf, insertWalk, rootInit,
      update_parent_values_and_leaf_status, updateForest, forestValueSum, recordsTotal,
      Forest.getChild, Forest.setChild, Forest.isNil, Node.setValue, rootEps, allEmpty,
      getOrCreate, bumpLeaf, List.range_succ, nodeSummary, lookupPath]
    norm_num
  · simp [build_tree, insertPhase, insertRecord, rowOf, insertWalk, rootInit,
      update_parent_values_and_leaf_status, updateForest, forestValueSum, recordsTotal,
      Forest.getChild, Forest.setChild, Forest.isNil, Node.setValue, rootEps, allEmpty,
      getOrCreate, bumpLeaf, List.range_succ, nodeSummary, lookupPath]

/-- Witness for claim C5: the general classification applied to the root of a
concrete tree. -/
theorem claim5_leaf_classification_witness :
    (build_tree 2 [Record.mk ["A"] 7, Record.mk ["A", "X"] 3]).isLeaf =
      (build_tree 2 [Record.mk ["A"] 7, Record.mk ["A", "X"] 3]).children.isNil :=
  claim5_leaf_classification.1 2 [Record.mk ["A"] 7, Record.mk ["A", "X"] 3] _
    (nodesOf_self_mem _)

/-- Claim C6, counterexample: for the Scenario C records (["A"], 7) and
(["A","X"], 3) the flattened leaves are exactly X with value 3 (node A is not
a leaf, so its direct value 7 is never emitted), while root.value is 10 — the
flattened total does not equal root.value. -/
theorem claim6_counterexample :
    ¬ (rowsSum (flatten_original_tree_to_df 2 []
        (build_tree 2 [⟨["A"], 7⟩, ⟨["A", "X"], 3⟩])) =
      (build_tree 2 [⟨["A"], 7⟩, ⟨["A", "X"], 3⟩]).value) := by
  simp [build_tree, insertPhase, insertRecord, rowOf, insertWalk, rootInit,
    update_parent_values_and_leaf_status, updateForest, forestValueSum, recordsTotal,
    Forest.getChild, Forest.setChild, Forest.isNil, Node.setValue, rootEps, allEmpty,
    getOrCreate, bumpLeaf, List.range_succ, rowsSum, flatten_original_tree_to_df,
    flattenForest]

/-- Claim C6, amended: the sum of the flattened leaf values equals root.value
for every non-empty record set whose rows are contiguous with non-empty paths
and positive values, provided no record's path is a proper prefix of another
record's path (so no direct value lands on an internal node).  When a record
does terminate at an internal node, its value is counted in root.value but
not in any flattened leaf, as the Scenario C counterexample shows. -/
theorem claim6_amended_leaf_conservation (cols D : Nat) (cur : List String)
    (rs : List Record) (hrs : rs ≠ [])
    (hcont : ∀ r ∈ rs, contig (rowOf cols r) = true)
    (hne : ∀ r ∈ rs, recTrunc cols r ≠ [])
    (hpos : ∀ r ∈ rs, 0 < r.value)
    (hnp : ∀ r ∈ rs, ∀ r' ∈ rs, recTrunc cols r <+: recTrunc cols r' →
      recTrunc cols r = recTrunc cols r') :
    rowsSum (flatten_original_tree_to_df D cur (build_tree cols rs)) =
      (build_tree cols rs).value :=
  flatten_build_tree_sum cols D cur rs hrs hcont hne hpos hnp

/-- Witness for the amended claim C6 at a concrete two-record input. -/
theorem claim6_amended_leaf_conservation_witness :
    rowsSum (flatten_original_tree_to_df 2 []
      (build_tree 2 [Record.mk ["A", "X"] 10, Record.mk ["B"] 5])) =
      (build_tree 2 [Record.mk ["A", "X"] 10, Record.mk ["B"] 5]).value :=
  claim6_amended_leaf_conservation 2 2 [] [Record.mk ["A", "X"] 10, Record.mk ["B"] 5]
    (by decide) (by decide) (by decide) (by decide) (by decide)

/-- Claim C7: permuting the input records yields a build_tree result with the
same node names, values and is_leaf flags at every path, and an identical
single-step set computed from the flattened rows. -/
theorem claim7_order_independence (cols D : Nat) (rs rs' : List Record)
    (h : rs.Perm rs') :
    (∀ p, nodeSummary (build_tree cols rs) p = nodeSummary (build_tree cols rs') p) ∧
    (∀ s, s ∈ single_steps D (flatten_original_tree_to_df D [] (build_tree cols rs)) ↔
      s ∈ single_steps D (flatten_original_tree_to_df D [] (build_tree cols rs'))) :=
  ⟨nodeSummary_build_tree_perm cols rs rs' h,
    single_steps_build_tree_perm cols D rs rs' h⟩

/-- Witness for claim C7 at a concrete transposition of two records. -/
theorem claim7_order_independence_witness :
    nodeSummary (build_tree 2 [Record.mk ["A"] 7, Record.mk ["A", "X"] 3]) ["A"] =
      nodeSummary (build_tree 2 [Record.mk ["A", "X"] 3, Record.mk ["A"] 7]) ["A"] :=
  (claim7_order_independence 2 2 [Record.mk ["A"] 7, Record.mk ["A", "X"] 3]
    [Record.mk ["A", "X"] 3, Record.mk ["A"] 7] (List.Perm.swap _ _ _)).1 ["A"]

/-- Claim C8: for a positive dataset total the displayed percentage (in both
generate_treemap.py's format_percentage and create_treemap.py's
get_display_text) is round(100·v/T, 2), and for a zero total it is 0.00. -/
theorem claim8_percentage (v T : ℚ) :
    (0 < T → format_percentage v T = round2 (100 * v / T) ∧
      get_display_text_pct v T = round2 (100 * v / T)) ∧
    (T = 0 → format_percentage v T = 0 ∧ get_display_text_pct v T = 0) := by
  constructor
  · intro h
    exact ⟨format_percentage_of_pos v T h, get_display_text_pct_of_pos v T h⟩
  · intro h
    subst h
    exact ⟨format_percentage_of_zero v, get_display_text_pct_of_zero v⟩

/-- Witness for claim C8 at a concrete positive total. -/
theorem claim8_percentage_witness :
    format_percentage 1 2 = round2 (100 * 1 / 2) ∧
    get_display_text_pct 1 2 = round2 (100 * 1 / 2) :=
  (claim8_percentage 1 2).1 (by norm_num)

/-- Claim C9: throughout and after build_tree's insertion loop the Root
sentinel's directly attributed value is 0, and inserting a record whose
hierarchy path is entirely empty into a node named "Root" leaves the tree
completely unchanged (its value reaches no node; only the fallback on the
externally computed total can reflect it in root.value). -/
theorem claim9_root_direct_value :
    (∀ (cols : Nat) (rs : List Record), valueAt (insertPhase cols rs) [] = 0) ∧
    (∀ (cols : Nat) (t : Node) (r : Record), t.name = "Root" →
      allEmpty (rowOf cols r) = true → insertRecord cols t r = t) :=
  ⟨valueAt_insertPhase_nil, insertRecord_allEmpty⟩

/-- Witness for claim C9 at concrete inputs. -/
theorem claim9_root_direct_value_witness :
    valueAt (insertPhase 4 [Record.mk ["", ""] 5]) [] = 0 ∧
    insertRecord 4 rootInit (Record.mk ["", ""] 5) = rootInit :=
  ⟨claim9_root_direct_value.1 4 [Record.mk ["", ""] 5],
    claim9_root_direct_value.2 4 rootInit (Record.mk ["", ""] 5) rfl (by decide)⟩

/-- Claim C10: every row emitted by flatten_original_tree_to_df has a strictly
positive value — a leaf whose value is zero or negative is silently omitted,
so downstream consumers never receive a zero-valued leaf. -/
theorem claim10_positive_flattened_leaves (D : Nat) (cur : List String) (t : Node) :
    ∀ row ∈ flatten_original_tree_to_df D cur t, 0 < row.value_plot :=
  flatten_pos D cur t

/-- Witness for claim C10 at a concrete flattened row. -/
theorem claim10_positive_flattened_leaves_witness :
    0 < (LeafRow.mk ["A", ""] 5 "Root > A" "A").value_plot :=
  claim10_positive_flattened_leaves 2 [] (build_tree 2 [Record.mk ["A"] 5]) _
    (by simp [build_tree, insertPhase, insertRecord, rowOf, insertWalk, rootInit,
      update_parent_values_and_leaf_status, updateForest, forestValueSum, recordsTotal,
      Forest.getChild, Forest.setChild, Forest.isNil, Node.setValue, rootEps, allEmpty,
      getOrCreate, bumpLeaf, List.range_succ, flatten_original_tree_to_df, flattenForest,
      String.intercalate, String.intercalate.go])
